import Mathlib

/-!
# Ring buffer of `temperature-amd/main.go`

A shallow embedding of the `RingBuffer` type of `temperature-amd/main.go`
(`NewRingBuffer`, `Add`, `GetAll`, `Average`, `Size`, `Capacity`) and the
properties of it that the specification states.

Modelling conventions.

* Go's `int` is modelled by `Int`.  The only arithmetic performed on the
  fields is `size + 1`, `head + 1`, `tail + 1` and `head + i` with
  `i < size`; on a buffer whose storage could be allocated all of these stay
  far below `2 ^ 63`, so no wrap-around is modelled.
* A Go slice is modelled by a `List`.  Every operation that can panic at run
  time (an index out of range, an integer remainder by zero, `make` with a
  negative length) returns `Option`, with `none` standing for the panic.
* `float64` samples are modelled by an arbitrary type `α` carrying the
  operations the code uses (`0`, `+`, `/` and the conversion from `int`).
  The structural theorems hold for every such `α`; the numeric examples are
  evaluated over `ℚ`.  Where rounding decides a property, `α` is instantiated
  with `Binary64`, the finite values of `float64` with round-to-nearest-even
  arithmetic.
* A Go `error` value is modelled by `Option String`: `none` is `nil`, and
  `some msg` is `errors.New(msg)`.
-/

namespace TemperatureAmd

/-! ## Go primitives -/

/-- The Go expression `a % b` on `int`: the remainder of the truncated division; it panics
when the divisor is zero. -/
def goRem (a b : Int) : Option Int :=
  if b = 0 then none else some (Int.tmod a b)

/-- The slice read `s[i]`: it panics unless `0 ≤ i < len(s)`. -/
def sliceGet {α : Type} (s : List α) (i : Int) : Option α :=
  if i < 0 then none else s[i.toNat]?

/-- The slice write `s[i] = v`: it panics unless `0 ≤ i < len(s)`. -/
def sliceSet {α : Type} (s : List α) (i : Int) (v : α) : Option (List α) :=
  if 0 ≤ i ∧ i < (s.length : Int) then some (s.set i.toNat v) else none

/-- The allocation `make([]float64, n)`: a zero-filled slice of length `n`; it
panics when `n` is negative. -/
def makeSlice {α : Type} [Zero α] (n : Int) : Option (List α) :=
  if n < 0 then none else some (List.replicate n.toNat 0)

/-! ## The data model -/

/-- The struct `RingBuffer` (main.go, lines 14-21). -/
structure RingBuffer (α : Type) where
  data : List α
  size : Int
  capacity : Int
  head : Int
  tail : Int
  isFull : Bool
deriving DecidableEq

/-- The function `NewRingBuffer` (main.go, lines 24-37).  The result is the Go
pair `(*RingBuffer, error)`: `(none, some msg)` is `(nil, err)` and
`(some rb, none)` is `(&rb, nil)`. -/
def NewRingBuffer {α : Type} [Zero α] (capacity : Int) :
    Option (RingBuffer α) × Option String :=
  if capacity ≤ 0 then
    (none, some "capacity must be positive")
  else
    (some
      { data := List.replicate capacity.toNat 0
        size := 0
        capacity := capacity
        head := 0
        tail := 0
        isFull := false },
     none)

/-- The loop of `GetAll` (main.go, lines 63-66), with `n` iterations left, the
loop counter at `i` and the result slice filled so far. -/
def RingBuffer.getAllLoop {α : Type} (rb : RingBuffer α) : Nat → Int → List α → Option (List α)
  | 0, _, result => some result
  | n + 1, i, result => do
    let idx ← goRem (rb.head + i) rb.capacity
    let x ← sliceGet rb.data idx
    let result1 ← sliceSet result i x
    getAllLoop rb n (i + 1) result1

/-- The method `GetAll` (main.go, lines 57-69); `none` is a run-time panic.
The loop `for i := 0; i < rb.size; i++` runs `rb.size` times (no time when
`rb.size` is negative). -/
def RingBuffer.GetAll {α : Type} [Zero α] (rb : RingBuffer α) : Option (List α) :=
  if rb.size = 0 then
    some []
  else do
    let result ← makeSlice rb.size
    getAllLoop rb rb.size.toNat 0 result

/-- The loop of `Average` (main.go, lines 78-81), with `n` iterations left, the
loop counter at `i` and the running sum. -/
def RingBuffer.averageLoop {α : Type} [Add α] (rb : RingBuffer α) : Nat → Int → α → Option α
  | 0, _, sum => some sum
  | n + 1, i, sum => do
    let idx ← goRem (rb.head + i) rb.capacity
    let x ← sliceGet rb.data idx
    averageLoop rb n (i + 1) (sum + x)

/-- The method `Average` (main.go, lines 72-84); the outer `none` is a
run-time panic, the result is the Go pair `(float64, error)`. -/
def RingBuffer.Average {α : Type} [Zero α] [Add α] [Div α] [IntCast α] (rb : RingBuffer α) :
    Option (α × Option String) :=
  if rb.size = 0 then
    some (0, some "buffer is empty")
  else do
    let sum ← averageLoop rb rb.size.toNat 0 0
    pure (sum / ((rb.size : Int) : α), none)

/-- The method `Size` (main.go, lines 87-89). -/
def RingBuffer.Size {α : Type} (rb : RingBuffer α) : Int := rb.size

/-- The method `Capacity` (main.go, lines 92-94). -/
def RingBuffer.Capacity {α : Type} (rb : RingBuffer α) : Int := rb.capacity

/-- The method `Add` (main.go, lines 40-54); `none` is a run-time panic.  (It is
declared after the observers only so that the name `Add` still denotes the
addition class in their signatures.) -/
def RingBuffer.Add {α : Type} (rb : RingBuffer α) (value : α) : Option (RingBuffer α) := do
  let rb1 ←
    if rb.isFull then do
      let h ← goRem (rb.head + 1) rb.capacity
      pure { rb with head := h }
    else
      pure { rb with size := rb.size + 1 }
  let d ← sliceSet rb1.data rb1.tail value
  let rb2 := { rb1 with data := d }
  let t ← goRem (rb2.tail + 1) rb2.capacity
  let rb3 := { rb2 with tail := t }
  pure { rb3 with isFull := decide (rb3.size = rb3.capacity) }

/-- Calls `Add` with each value of the list, in order, on the buffer. -/
def RingBuffer.addAll {α : Type} (rb : RingBuffer α) : List α → Option (RingBuffer α)
  | [] => some rb
  | v :: vs => (rb.Add v).bind (fun rb1 => addAll rb1 vs)

/-- The buffer obtained from `NewRingBuffer(c)` followed by `Add` of each value
of `vs` in order; `none` when the constructor returned no buffer or a call
panicked. -/
def build {α : Type} [Zero α] (c : Int) (vs : List α) : Option (RingBuffer α) :=
  (NewRingBuffer c).1.bind (fun rb => rb.addAll vs)

/-- The buffer states reachable from a successful `NewRingBuffer(c)` by a
sequence of calls of `Add`. -/
def Reachable {α : Type} [Zero α] (c : Int) (rb : RingBuffer α) : Prop :=
  ∃ vs : List α, build c vs = some rb

/-! ## Definitions used to state the properties -/

/-- The element that `GetAll` and `Average` read at loop counter `i`:
`rb.data[(rb.head + i) % rb.capacity]`. -/
def RingBuffer.readAt {α : Type} (rb : RingBuffer α) (i : Int) : Option α :=
  (goRem (rb.head + i) rb.capacity).bind (sliceGet rb.data)

/-- The state of a buffer of capacity `C` after the values `vs` were added to a
fresh buffer, in terms of `vs` alone. -/
structure Inv {α : Type} (C : Nat) (vs : List α) (rb : RingBuffer α) : Prop where
  capacity_eq : rb.capacity = (C : Int)
  length_data : rb.data.length = C
  size_eq : rb.size = ((min vs.length C : Nat) : Int)
  head_eq : rb.head = (((vs.length - min vs.length C) % C : Nat) : Int)
  tail_eq : rb.tail = ((vs.length % C : Nat) : Int)
  isFull_eq : rb.isFull = decide (C ≤ vs.length)
  slot : ∀ k : Nat, k < vs.length → vs.length ≤ k + C → rb.data[k % C]? = vs[k]?

/-- The last `C` elements of `vs` (all of `vs` when it has at most `C`). -/
def lastValues {α : Type} (C : Nat) (vs : List α) : List α :=
  vs.drop (vs.length - C)

/-- The reference model of the window, in the words of the specification:
append the new value, then keep the last `C` values. -/
def windowInsert {α : Type} (C : Nat) (w : List α) (v : α) : List α :=
  lastValues C (w ++ [v])

/-- The reference model run on a sequence of values, starting from the empty
window. -/
def windowOf {α : Type} (C : Nat) (vs : List α) : List α :=
  vs.foldl (windowInsert C) []

/-! ## The observers as steps on the state -/

/-- The four observers of a buffer: `GetAll`, `Average`, `Size`, `Capacity`. -/
inductive Observer where
  | getAll
  | average
  | size
  | capacity
deriving DecidableEq

/-- The value returned by a call of an observer. -/
inductive Observed (α : Type) where
  | values (xs : List α)
  | mean (x : α) (err : Option String)
  | int (n : Int)
deriving DecidableEq

/-- A call of an observer as a step on the state of the receiver: the value
returned, together with the receiver after the call; `none` is a run-time
panic.  The bodies of the four methods (main.go, lines 57-94) contain no
assignment to a field of the receiver, and `GetAll` writes only to the slice it
has just allocated, so the receiver is handed back as it was passed. -/
def observe {α : Type} [Zero α] [Add α] [Div α] [IntCast α] (rb : RingBuffer α) :
    Observer → Option (Observed α × RingBuffer α)
  | Observer.getAll => rb.GetAll.map (fun xs => (Observed.values xs, rb))
  | Observer.average => rb.Average.map (fun r => (Observed.mean r.1 r.2, rb))
  | Observer.size => some (Observed.int rb.Size, rb)
  | Observer.capacity => some (Observed.int rb.Capacity, rb)

/-! ## The driver loop of `main` -/

/-- The three temperatures read in one iteration of the loop of `main`
(main.go, lines 140-142); obtaining them from the `sensors` command is outside
the model. -/
structure Sample (α : Type) where
  tctl : α
  tccd1 : α
  tccd2 : α

/-- The local variables of `main` that live across iterations: the six buffers
and the counter (main.go, lines 98-122). -/
structure MainState (α : Type) where
  rbTctl_1 : RingBuffer α
  rbTccd1_1 : RingBuffer α
  rbTccd2_1 : RingBuffer α
  rbTctl_5 : RingBuffer α
  rbTccd1_5 : RingBuffer α
  rbTccd2_5 : RingBuffer α
  counter : Int

/-- The results of the six calls of `Average` in one iteration (main.go, lines
152-159), each with the error value that `main` discards. -/
structure Report (α : Type) where
  tctlAvg_1 : α × Option String
  tccd1Avg_1 : α × Option String
  tccd2Avg_1 : α × Option String
  tctlAvg_5 : α × Option String
  tccd1Avg_5 : α × Option String
  tccd2Avg_5 : α × Option String

/-- The statement pair `rb, err := NewRingBuffer(n); if err != nil { log.Fatal(err) }`
of `main`: `none` when the program stops there. -/
def newBufferOrFatal {α : Type} [Zero α] (capacity : Int) : Option (RingBuffer α) :=
  match (NewRingBuffer capacity : Option (RingBuffer α) × Option String) with
  | (rb, none) => rb
  | (_, some _) => none

/-- The initialisation of `main` (main.go, lines 98-122). -/
def mainInit {α : Type} [Zero α] : Option (MainState α) := do
  let rbTctl_1 ← newBufferOrFatal 60
  let rbTccd1_1 ← newBufferOrFatal 60
  let rbTccd2_1 ← newBufferOrFatal 60
  let rbTctl_5 ← newBufferOrFatal 300
  let rbTccd1_5 ← newBufferOrFatal 300
  let rbTccd2_5 ← newBufferOrFatal 300
  pure
    { rbTctl_1 := rbTctl_1
      rbTccd1_1 := rbTccd1_1
      rbTccd2_1 := rbTccd2_1
      rbTctl_5 := rbTctl_5
      rbTccd1_5 := rbTccd1_5
      rbTccd2_5 := rbTccd2_5
      counter := 0 }

/-- One iteration of the loop of `main` on the temperatures read in it
(main.go, lines 144-168): the six calls of `Add`, then the six calls of
`Average`, then `counter++`; `none` is a run-time panic. -/
def mainStep {α : Type} [Zero α] [Add α] [Div α] [IntCast α] (s : MainState α)
    (x : Sample α) : Option (MainState α × Report α) := do
  let rbTctl_1 ← s.rbTctl_1.Add x.tctl
  let rbTccd1_1 ← s.rbTccd1_1.Add x.tccd1
  let rbTccd2_1 ← s.rbTccd2_1.Add x.tccd2
  let rbTctl_5 ← s.rbTctl_5.Add x.tctl
  let rbTccd1_5 ← s.rbTccd1_5.Add x.tccd1
  let rbTccd2_5 ← s.rbTccd2_5.Add x.tccd2
  let tctlAvg_1 ← rbTctl_1.Average
  let tccd1Avg_1 ← rbTccd1_1.Average
  let tccd2Avg_1 ← rbTccd2_1.Average
  let tctlAvg_5 ← rbTctl_5.Average
  let tccd1Avg_5 ← rbTccd1_5.Average
  let tccd2Avg_5 ← rbTccd2_5.Average
  pure
    ({ rbTctl_1 := rbTctl_1
       rbTccd1_1 := rbTccd1_1
       rbTccd2_1 := rbTccd2_1
       rbTctl_5 := rbTctl_5
       rbTccd1_5 := rbTccd1_5
       rbTccd2_5 := rbTccd2_5
       counter := s.counter + 1 },
     { tctlAvg_1 := tctlAvg_1
       tccd1Avg_1 := tccd1Avg_1
       tccd2Avg_1 := tccd2Avg_1
       tctlAvg_5 := tctlAvg_5
       tccd1Avg_5 := tccd1Avg_5
       tccd2Avg_5 := tccd2Avg_5 })

/-- The iterations of the loop of `main` on a finite sequence of readings, with
the report of each iteration in order. -/
def mainLoop {α : Type} [Zero α] [Add α] [Div α] [IntCast α] (s : MainState α) :
    List (Sample α) → Option (MainState α × List (Report α))
  | [] => some (s, [])
  | x :: xs =>
    (mainStep s x).bind (fun p =>
      (mainLoop p.1 xs).bind (fun q => some (q.1, p.2 :: q.2)))

/-- The function `main` run on a finite sequence of readings. -/
def mainProgram {α : Type} [Zero α] [Add α] [Div α] [IntCast α] (samples : List (Sample α)) :
    Option (MainState α × List (Report α)) :=
  (mainInit : Option (MainState α)).bind (fun s => mainLoop s samples)

/-! ## Definitions used to state the properties of `main` -/

/-- The mean of a sequence as `Average` computes it: the elements added up from
`0`, left to right, divided by their number. -/
def meanOf {α : Type} [Zero α] [Add α] [Div α] [IntCast α] (xs : List α) : α :=
  xs.foldl (· + ·) 0 / (((xs.length : Nat) : Int) : α)

/-- The report expected from the iteration of `main` that completes the
readings `hist`: per channel, the mean of its last 60 and of its last 300
readings, each with a nil error. -/
def reportOf {α : Type} [Zero α] [Add α] [Div α] [IntCast α] (hist : List (Sample α)) :
    Report α :=
  { tctlAvg_1 := (meanOf (lastValues 60 (hist.map Sample.tctl)), none)
    tccd1Avg_1 := (meanOf (lastValues 60 (hist.map Sample.tccd1)), none)
    tccd2Avg_1 := (meanOf (lastValues 60 (hist.map Sample.tccd2)), none)
    tctlAvg_5 := (meanOf (lastValues 300 (hist.map Sample.tctl)), none)
    tccd1Avg_5 := (meanOf (lastValues 300 (hist.map Sample.tccd1)), none)
    tccd2Avg_5 := (meanOf (lastValues 300 (hist.map Sample.tccd2)), none) }

/-- The state of `main` after the iterations on the readings `hist`: each
buffer is the one built from its channel of the readings. -/
structure MainInv {α : Type} [Zero α] (hist : List (Sample α)) (s : MainState α) : Prop where
  tctl_1 : build 60 (hist.map Sample.tctl) = some s.rbTctl_1
  tccd1_1 : build 60 (hist.map Sample.tccd1) = some s.rbTccd1_1
  tccd2_1 : build 60 (hist.map Sample.tccd2) = some s.rbTccd2_1
  tctl_5 : build 300 (hist.map Sample.tctl) = some s.rbTctl_5
  tccd1_5 : build 300 (hist.map Sample.tccd1) = some s.rbTccd1_5
  tccd2_5 : build 300 (hist.map Sample.tccd2) = some s.rbTccd2_5
  counter_eq : s.counter = (hist.length : Int)

/-! ## The arithmetic of `float64` -/

/-- A finite value of Go's `float64` (IEEE 754 binary64): the number
`m * 2 ^ e`.  The operations below return the canonical form, with
`2 ^ 52 ≤ |m| < 2 ^ 53`, or `m = 0` and `e = 0`.  The exponent is not bounded:
the model agrees with `float64` as long as no operation overflows, underflows
to a subnormal, or yields an infinity or a NaN; the two zeros are identified. -/
structure Binary64 where
  m : Int
  e : Int
deriving DecidableEq

/-- The number of binary digits of `n`, computed by halving at most `fuel`
times. -/
def bitLengthAux : Nat → Nat → Nat
  | 0, _ => 0
  | fuel + 1, n => if n = 0 then 0 else bitLengthAux fuel (n / 2) + 1

/-- The number of binary digits of `n` (`0` for `n = 0`); `n` halvings always
suffice. -/
def bitLength (n : Nat) : Nat := bitLengthAux n n

/-- The number `n * 2 ^ e` rounded to 53 significant binary digits, to nearest,
ties to even, as a pair of mantissa and exponent in canonical form. -/
def roundNat (n : Nat) (e : Int) : Nat × Int :=
  if n = 0 then
    (0, 0)
  else
    let bits := bitLength n
    if bits ≤ 53 then
      (n * 2 ^ (53 - bits), e - ((53 - bits : Nat) : Int))
    else
      let shift := bits - 53
      let q := n / 2 ^ shift
      let r := n % 2 ^ shift
      let half := 2 ^ (shift - 1)
      let q1 := if half < r ∨ (r = half ∧ q % 2 = 1) then q + 1 else q
      if q1 = 2 ^ 53 then (2 ^ 52, e + (shift : Int) + 1) else (q1, e + (shift : Int))

/-- The number `m * 2 ^ e` rounded to a `float64`. -/
def Binary64.round (m : Int) (e : Int) : Binary64 :=
  let p := roundNat m.natAbs e
  if m < 0 then { m := -(p.1 : Int), e := p.2 } else { m := (p.1 : Int), e := p.2 }

/-- The sum `x + y` of `float64`: the exact sum, rounded. -/
def Binary64.add (x y : Binary64) : Binary64 :=
  let e := min x.e y.e
  Binary64.round (x.m * 2 ^ (x.e - e).toNat + y.m * 2 ^ (y.e - e).toNat) e

/-- The quotient `x / y` of `float64`: the exact quotient, rounded.  The
quotient of the mantissas is computed to at least 56 binary digits and one more
digit records whether the division left a remainder, so that the rounding is
that of the exact quotient.  A zero divisor, for which Go yields an infinity or
a NaN, is outside the model and gives `0`. -/
def Binary64.div (x y : Binary64) : Binary64 :=
  if y.m = 0 then
    { m := 0, e := 0 }
  else
    let k := 55 + bitLength y.m.natAbs
    let n := x.m.natAbs * 2 ^ k
    let q := n / y.m.natAbs
    let sticky := if n % y.m.natAbs = 0 then 0 else 1
    let p := roundNat (2 * q + sticky) (x.e - y.e - (k : Int) - 1)
    if (x.m < 0) = (y.m < 0) then { m := (p.1 : Int), e := p.2 }
    else { m := -(p.1 : Int), e := p.2 }

instance : Zero Binary64 := ⟨{ m := 0, e := 0 }⟩

instance : Add Binary64 := ⟨Binary64.add⟩

instance : Div Binary64 := ⟨Binary64.div⟩

/-- The conversion `float64(n)` of an `int`. -/
instance : IntCast Binary64 := ⟨fun n => Binary64.round n 0⟩

/-- The `float64` nearest to `0.1`, which is what the literal `0.1` denotes:
`0x3FB999999999999A`. -/
def tenth : Binary64 := { m := 7205759403792794, e := -56 }

/-! ## Go primitives on natural-number arguments -/

theorem goRem_natCast (a b : Nat) (hb : 0 < b) :
    goRem (a : Int) (b : Int) = some ((a % b : Nat) : Int) := by
  have hb0 : (b : Int) ≠ 0 := by omega
  simp only [goRem, hb0, if_false]
  rw [Int.tmod_eq_emod (by omega) (by omega)]
  push_cast
  rfl

theorem sliceGet_natCast {α : Type} (s : List α) (i : Nat) :
    sliceGet s (i : Int) = s[i]? := by
  simp [sliceGet]

theorem sliceSet_natCast {α : Type} (s : List α) (i : Nat) (v : α) (h : i < s.length) :
    sliceSet s (i : Int) v = some (s.set i v) := by
  simp [sliceSet, h]

/-! ## Reading the logical contents -/

theorem getAllLoop_succ {α : Type} (rb : RingBuffer α) (n : Nat) (i : Int) (result : List α) :
    rb.getAllLoop (n + 1) i result =
      (rb.readAt i).bind (fun x =>
        (sliceSet result i x).bind (fun r => rb.getAllLoop n (i + 1) r)) := by
  simp only [RingBuffer.getAllLoop, RingBuffer.readAt, bind, Option.bind_assoc]

theorem averageLoop_succ {α : Type} [Add α] (rb : RingBuffer α) (n : Nat) (i : Int) (sum : α) :
    rb.averageLoop (n + 1) i sum =
      (rb.readAt i).bind (fun x => rb.averageLoop n (i + 1) (sum + x)) := by
  simp only [RingBuffer.averageLoop, RingBuffer.readAt, bind, Option.bind_assoc]

/-- When the reads at counters `0 .. len(ws) - 1` return the elements of `ws`,
the loop of `GetAll` started on a partially filled result completes it to `ws`. -/
theorem getAllLoop_eq {α : Type} (rb : RingBuffer α) (ws : List α) (z : α)
    (hread : ∀ j : Nat, j < ws.length → rb.readAt (j : Int) = ws[j]?) :
    ∀ (m : Nat) (pre : List α), pre.length + m = ws.length → pre = ws.take pre.length →
      rb.getAllLoop m (pre.length : Int) (pre ++ List.replicate m z) = some ws := by
  intro m
  induction m with
  | zero =>
    intro pre hlen hpre
    have h1 : pre.length = ws.length := by omega
    rw [h1, List.take_length] at hpre
    simp [RingBuffer.getAllLoop, hpre]
  | succ m ih =>
    intro pre hlen hpre
    have hj : pre.length < ws.length := by omega
    rw [getAllLoop_succ, hread _ hj, List.getElem?_eq_getElem hj]
    have hset : sliceSet (pre ++ List.replicate (m + 1) z) (pre.length : Int) ws[pre.length]
        = some ((pre ++ [ws[pre.length]]) ++ List.replicate m z) := by
      rw [sliceSet_natCast _ _ _ (by simp)]
      simp [List.replicate_succ]
    simp only [Option.some_bind, hset]
    have hcast : (pre.length : Int) + 1 = ((pre ++ [ws[pre.length]]).length : Int) := by
      simp
    rw [hcast]
    apply ih
    · simp; omega
    · simp only [List.length_append, List.length_singleton]
      rw [List.take_succ, ← hpre, List.getElem?_eq_getElem hj]
      rfl

/-- When the reads at counters `0 .. len(ws) - 1` return the elements of `ws`,
the loop of `Average` adds the remaining elements of `ws` to the running sum,
left to right. -/
theorem averageLoop_eq {α : Type} [Add α] (rb : RingBuffer α) (ws : List α)
    (hread : ∀ j : Nat, j < ws.length → rb.readAt (j : Int) = ws[j]?) :
    ∀ (m i : Nat) (sum : α), i + m = ws.length →
      rb.averageLoop m (i : Int) sum = some ((ws.drop i).foldl (· + ·) sum) := by
  intro m
  induction m with
  | zero =>
    intro i sum hlen
    have h1 : ws.length ≤ i := by omega
    simp [RingBuffer.averageLoop, List.drop_eq_nil_of_le h1]
  | succ m ih =>
    intro i sum hlen
    have hj : i < ws.length := by omega
    rw [averageLoop_succ, hread _ hj, List.getElem?_eq_getElem hj]
    simp only [Option.some_bind]
    have hcast : (i : Int) + 1 = ((i + 1 : Nat) : Int) := by push_cast; rfl
    rw [hcast, ih (i + 1) _ (by omega), List.drop_eq_getElem_cons hj]
    rfl

theorem getAll_eq_of_reads {α : Type} [Zero α] (rb : RingBuffer α) (ws : List α)
    (hsize : rb.size = (ws.length : Int))
    (hread : ∀ j : Nat, j < ws.length → rb.readAt (j : Int) = ws[j]?) :
    rb.GetAll = some ws := by
  unfold RingBuffer.GetAll
  rw [hsize]
  by_cases h0 : ws.length = 0
  · have : ws = [] := List.eq_nil_of_length_eq_zero h0
    simp [this]
  · have h1 : ¬ ((ws.length : Int) = 0) := by omega
    have hneg : ¬ ((ws.length : Int) < 0) := by omega
    simp only [h1, if_false, makeSlice, hneg, bind, Option.some_bind, Int.toNat_ofNat]
    have := getAllLoop_eq rb ws (0 : α) hread ws.length [] (by simp) (by simp)
    simpa using this

theorem average_eq_of_reads {α : Type} [Zero α] [Add α] [Div α] [IntCast α]
    (rb : RingBuffer α) (ws : List α)
    (hsize : rb.size = (ws.length : Int)) (hne : rb.size ≠ 0)
    (hread : ∀ j : Nat, j < ws.length → rb.readAt (j : Int) = ws[j]?) :
    rb.Average = some (ws.foldl (· + ·) 0 / ((rb.size : Int) : α), none) := by
  unfold RingBuffer.Average
  have := averageLoop_eq rb ws hread ws.length 0 (0 : α) (by simp)
  simp only [hne, if_false, bind, pure]
  rw [hsize, Int.toNat_ofNat]
  simp only [Nat.cast_zero, List.drop_zero] at this
  rw [this]
  rfl

/-! ## The representation invariant -/

theorem mod_ne_of_lt_of_lt {C k n : Nat} (hkn : k < n) (hn : n < k + C) :
    k % C ≠ n % C := by
  intro h
  have hdvd : C ∣ n - k := (Nat.modEq_iff_dvd' (Nat.le_of_lt hkn)).mp h
  have hle : C ≤ n - k := Nat.le_of_dvd (by omega) hdvd
  omega

theorem inv_new {α : Type} [Zero α] (c : Int) (hc : 0 < c) :
    ∃ rb : RingBuffer α, NewRingBuffer c = (some rb, none) ∧ Inv c.toNat [] rb := by
  have hc0 : ¬ c ≤ 0 := by omega
  refine ⟨{ data := List.replicate c.toNat 0, size := 0, capacity := c, head := 0, tail := 0,
             isFull := false }, by simp only [NewRingBuffer, hc0, if_false], ?_⟩
  constructor <;> simp
  · omega
  · omega

theorem inv_add {α : Type} {C : Nat} {vs : List α} {rb : RingBuffer α} (hC : 0 < C)
    (h : Inv C vs rb) (v : α) :
    ∃ rb1 : RingBuffer α, rb.Add v = some rb1 ∧ Inv C (vs ++ [v]) rb1 := by
  obtain ⟨data, size, capacity, head, tail, isFull⟩ := rb
  obtain ⟨h1, h2, h3, h4, h5, h6, h7⟩ := h
  simp only at h1 h2 h3 h4 h5 h6 h7
  subst h1 h3 h4 h5 h6
  have hlt : vs.length % C < data.length := by rw [h2]; exact Nat.mod_lt _ hC
  have hc1 : ∀ x : Nat, ((x : Nat) : Int) + 1 = ((x + 1 : Nat) : Int) := by
    intro x; push_cast; rfl
  have hslot : ∀ k : Nat, k < (vs ++ [v]).length → (vs ++ [v]).length ≤ k + C →
      (data.set (vs.length % C) v)[k % C]? = (vs ++ [v])[k]? := by
    intro k hk hkC
    simp only [List.length_append, List.length_singleton] at hk hkC
    by_cases hkn : k = vs.length
    · subst hkn
      simp [List.getElem?_set, hlt]
    · have hk1 : k < vs.length := by omega
      have hne : vs.length % C ≠ k % C := (mod_ne_of_lt_of_lt hk1 (by omega)).symm
      rw [List.getElem?_set, if_neg hne, List.getElem?_append_left hk1]
      exact h7 k hk1 (by omega)
  by_cases hfull : C ≤ vs.length
  · refine ⟨{ data := data.set (vs.length % C) v, size := ((min vs.length C : Nat) : Int),
               capacity := (C : Int),
               head := (((vs.length - min vs.length C) % C + 1) % C : Nat),
               tail := ((vs.length % C + 1) % C : Nat),
               isFull := decide (((min vs.length C : Nat) : Int) = (C : Int)) }, ?_, ?_⟩
    · simp only [RingBuffer.Add, hfull, decide_True, if_true, bind, pure, hc1,
        goRem_natCast _ _ hC, Option.some_bind, sliceSet_natCast _ _ _ hlt]
    · refine ⟨rfl, by simp [h2], ?_, ?_, ?_, ?_, hslot⟩ <;>
        simp only [List.length_append, List.length_singleton]
      · congr 1
        omega
      · rw [Nat.mod_add_mod]
        congr 2
        omega
      · rw [Nat.mod_add_mod]
      · simp only [Nat.cast_inj, decide_eq_decide]
        omega
  · refine ⟨{ data := data.set (vs.length % C) v, size := ((min vs.length C : Nat) : Int) + 1,
               capacity := (C : Int),
               head := (((vs.length - min vs.length C) % C : Nat) : Int),
               tail := ((vs.length % C + 1) % C : Nat),
               isFull := decide (((min vs.length C : Nat) : Int) + 1 = (C : Int)) }, ?_, ?_⟩
    · simp only [RingBuffer.Add, hfull, decide_False, if_false, bind, pure, hc1,
        goRem_natCast _ _ hC, Option.some_bind, sliceSet_natCast _ _ _ hlt]
      rfl
    · refine ⟨rfl, by simp [h2], ?_, ?_, ?_, ?_, hslot⟩ <;>
        simp only [List.length_append, List.length_singleton]
      · rw [hc1]
        congr 1
        omega
      · congr 2
        omega
      · rw [Nat.mod_add_mod]
      · simp only [hc1, Nat.cast_inj, decide_eq_decide]
        omega

/-! ## Sequences of insertions -/

theorem length_lastValues {α : Type} (C : Nat) (vs : List α) :
    (lastValues C vs).length = min vs.length C := by
  simp only [lastValues, List.length_drop]
  omega

theorem addAll_append {α : Type} (rb : RingBuffer α) (xs ys : List α) :
    rb.addAll (xs ++ ys) = (rb.addAll xs).bind (fun r => r.addAll ys) := by
  induction xs generalizing rb with
  | nil => simp [RingBuffer.addAll]
  | cons x xs ih =>
    simp only [List.cons_append, RingBuffer.addAll, Option.bind_assoc]
    congr 1
    funext r
    exact ih r

theorem inv_addAll {α : Type} {C : Nat} (hC : 0 < C) (ws : List α) :
    ∀ {vs : List α} {rb : RingBuffer α}, Inv C vs rb →
      ∃ rb1 : RingBuffer α, rb.addAll ws = some rb1 ∧ Inv C (vs ++ ws) rb1 := by
  induction ws with
  | nil =>
    intro vs rb h
    exact ⟨rb, rfl, by simpa using h⟩
  | cons w ws ih =>
    intro vs rb h
    obtain ⟨r1, h1, hi1⟩ := inv_add hC h w
    obtain ⟨r2, h2, hi2⟩ := ih hi1
    exact ⟨r2, by simp [RingBuffer.addAll, h1, h2], by simpa using hi2⟩

/-- Every sequence of insertions into a fresh buffer of positive capacity runs
without a panic and ends in the state described by `Inv`. -/
theorem build_inv {α : Type} [Zero α] (c : Int) (hc : 0 < c) (vs : List α) :
    ∃ rb : RingBuffer α, build c vs = some rb ∧ Inv c.toNat vs rb := by
  obtain ⟨rb0, hnew, hinv0⟩ := @inv_new α _ c hc
  obtain ⟨rb, hrb, hinv⟩ := inv_addAll (by omega : 0 < c.toNat) vs hinv0
  exact ⟨rb, by simp [build, hnew, hrb], by simpa using hinv⟩

theorem build_eq_none_of_nonpos {α : Type} [Zero α] (c : Int) (hc : c ≤ 0) (vs : List α) :
    build c vs = (none : Option (RingBuffer α)) := by
  simp [build, NewRingBuffer, hc]

theorem reachable_inv {α : Type} [Zero α] {c : Int} {rb : RingBuffer α}
    (h : Reachable c rb) : 0 < c ∧ ∃ vs : List α, build c vs = some rb ∧ Inv c.toNat vs rb := by
  obtain ⟨vs, hvs⟩ := h
  have hc : 0 < c := by
    by_contra hneg
    rw [build_eq_none_of_nonpos c (by omega) vs] at hvs
    exact Option.noConfusion hvs
  obtain ⟨rb1, h1, hinv⟩ := build_inv c hc vs
  rw [hvs] at h1
  cases h1
  exact ⟨hc, vs, hvs, hinv⟩

/-- In a state described by `Inv`, the read at loop counter `j` returns the
`j`-th of the last `C` values added. -/
theorem inv_readAt {α : Type} {C : Nat} {vs : List α} {rb : RingBuffer α} (hC : 0 < C)
    (h : Inv C vs rb) (j : Nat) (hj : j < (lastValues C vs).length) :
    rb.readAt (j : Int) = (lastValues C vs)[j]? := by
  rw [length_lastValues] at hj
  have hk : vs.length - min vs.length C + j < vs.length := by omega
  have hcast : rb.head + (j : Int) = (((vs.length - min vs.length C) % C + j : Nat) : Int) := by
    rw [h.head_eq]; push_cast; rfl
  rw [RingBuffer.readAt, hcast, h.capacity_eq, goRem_natCast _ _ hC, Option.some_bind,
    sliceGet_natCast, Nat.mod_add_mod, h.slot _ hk (by omega), lastValues, List.getElem?_drop]
  congr 1
  omega

theorem inv_size {α : Type} {C : Nat} {vs : List α} {rb : RingBuffer α} (h : Inv C vs rb) :
    rb.size = ((lastValues C vs).length : Int) := by
  rw [h.size_eq, length_lastValues]

theorem inv_getAll {α : Type} [Zero α] {C : Nat} {vs : List α} {rb : RingBuffer α}
    (hC : 0 < C) (h : Inv C vs rb) : rb.GetAll = some (lastValues C vs) :=
  getAll_eq_of_reads rb _ (inv_size h) (inv_readAt hC h)

theorem inv_average {α : Type} [Zero α] [Add α] [Div α] [IntCast α] {C : Nat} {vs : List α}
    {rb : RingBuffer α} (hC : 0 < C) (h : Inv C vs rb) (hne : vs ≠ []) :
    rb.Average = some ((lastValues C vs).foldl (· + ·) 0 / ((rb.size : Int) : α), none) := by
  apply average_eq_of_reads rb _ (inv_size h) _ (inv_readAt hC h)
  rw [h.size_eq]
  have : 0 < vs.length := List.length_pos.mpr hne
  omega

/-! ## The last values of a sequence -/

theorem lastValues_of_length_le {α : Type} {C : Nat} {vs : List α} (h : vs.length ≤ C) :
    lastValues C vs = vs := by
  have h0 : vs.length - C = 0 := by omega
  simp [lastValues, h0]

theorem lastValues_cons_of_length_eq {α : Type} {C : Nat} (v : α) {rest : List α}
    (h : rest.length = C) : lastValues C (v :: rest) = rest := by
  have h1 : (v :: rest).length - C = 1 := by simp; omega
  rw [lastValues, h1]
  rfl

theorem lastValues_concat_of_lt {α : Type} {C : Nat} {vs : List α} (v : α)
    (h : vs.length < C) : lastValues C (vs ++ [v]) = lastValues C vs ++ [v] := by
  rw [lastValues_of_length_le (by simp; omega), lastValues_of_length_le (by omega)]

theorem lastValues_concat_of_le {α : Type} {C : Nat} {vs : List α} (v : α) (hC : 0 < C)
    (h : C ≤ vs.length) : lastValues C (vs ++ [v]) = (lastValues C vs).tail ++ [v] := by
  have h1 : (vs ++ [v]).length - C = vs.length - C + 1 := by simp; omega
  rw [lastValues, h1, lastValues, List.tail_drop, List.drop_append_of_le_length (by omega)]

theorem lastValues_one {α : Type} {vs : List α} (hne : vs ≠ []) :
    lastValues 1 vs = [vs.getLast hne] := by
  have hpos : 0 < vs.length := List.length_pos.mpr hne
  have hlt : vs.length - 1 < vs.length := by omega
  have hsucc : vs.length - 1 + 1 = vs.length := by omega
  rw [lastValues, List.drop_eq_getElem_cons hlt, hsucc, List.drop_length,
    List.getLast_eq_getElem]

/-! ## The claims of the specification -/

/-- C1 (capacity invariant): for every capacity `c > 0` and every finite
sequence of values, `NewRingBuffer(c)` followed by `Add` of each value in order
yields a buffer with `0 ≤ Size() ≤ Capacity()` and `Capacity() = c`. -/
theorem capacity_invariant {α : Type} [Zero α] (c : Int) (hc : 0 < c) (vs : List α) :
    ∃ rb : RingBuffer α, build c vs = some rb ∧
      0 ≤ rb.Size ∧ rb.Size ≤ rb.Capacity ∧ rb.Capacity = c := by
  obtain ⟨rb, hrb, hinv⟩ := build_inv c hc vs
  refine ⟨rb, hrb, ?_, ?_, ?_⟩
  · rw [RingBuffer.Size, hinv.size_eq]
    omega
  · rw [RingBuffer.Size, RingBuffer.Capacity, hinv.size_eq, hinv.capacity_eq]
    omega
  · rw [RingBuffer.Capacity, hinv.capacity_eq]
    omega

theorem capacity_invariant_witness :
    ∃ rb : RingBuffer ℚ, build 3 [1, 2, 3, 4] = some rb ∧
      0 ≤ rb.Size ∧ rb.Size ≤ rb.Capacity ∧ rb.Capacity = 3 :=
  capacity_invariant 3 (by decide) [1, 2, 3, 4]

/-- C2 (FIFO eviction): for every capacity `c ≥ 1` and every sequence
`v1, ..., v(c+1)` of `c + 1` values, after `NewRingBuffer(c)` and the `c + 1`
calls of `Add`, `GetAll()` returns exactly `[v2, ..., v(c+1)]`; when the values
are pairwise distinct, `v1` does not occur in the result. -/
theorem fifo_eviction {α : Type} [Zero α] (c : Int) (hc : 1 ≤ c) (v1 : α) (rest : List α)
    (hlen : (rest.length : Int) = c) :
    ∃ (rb : RingBuffer α) (xs : List α), build c (v1 :: rest) = some rb ∧
      rb.GetAll = some xs ∧ xs = rest ∧ ((v1 :: rest).Nodup → v1 ∉ xs) := by
  obtain ⟨rb, hrb, hinv⟩ := build_inv c (by omega) (v1 :: rest)
  have hC : rest.length = c.toNat := by omega
  refine ⟨rb, rest, hrb, ?_, rfl, ?_⟩
  · rw [inv_getAll (by omega) hinv, lastValues_cons_of_length_eq v1 hC]
  · intro hnd
    exact (List.nodup_cons.mp hnd).1

theorem fifo_eviction_witness :
    ∃ (rb : RingBuffer ℚ) (xs : List ℚ), build 3 [1, 2, 3, 4] = some rb ∧
      rb.GetAll = some xs ∧ xs = [2, 3, 4] ∧ (([1, 2, 3, 4] : List ℚ).Nodup → (1 : ℚ) ∉ xs) :=
  fifo_eviction 3 (by decide) 1 [2, 3, 4] (by decide)

/-- C3 (order preservation): for every capacity `c ≥ 1` and every sequence
`v1, ..., vk` with `k ≤ c`, after `NewRingBuffer(c)` and the `k` calls of `Add`,
`GetAll()` returns exactly `[v1, ..., vk]` and `Size() = k`. -/
theorem order_preservation {α : Type} [Zero α] (c : Int) (hc : 1 ≤ c) (vs : List α)
    (hk : (vs.length : Int) ≤ c) :
    ∃ rb : RingBuffer α, build c vs = some rb ∧
      rb.GetAll = some vs ∧ rb.Size = (vs.length : Int) := by
  obtain ⟨rb, hrb, hinv⟩ := build_inv c (by omega) vs
  have hC : vs.length ≤ c.toNat := by omega
  refine ⟨rb, hrb, ?_, ?_⟩
  · rw [inv_getAll (by omega) hinv, lastValues_of_length_le hC]
  · rw [RingBuffer.Size, hinv.size_eq]
    omega

theorem order_preservation_witness :
    ∃ rb : RingBuffer ℚ, build 3 [7, 8] = some rb ∧
      rb.GetAll = some [7, 8] ∧ rb.Size = (([7, 8] : List ℚ).length : Int) :=
  order_preservation 3 (by decide) [7, 8] (by decide)

/-- C4 (average correctness): for every buffer obtained from `NewRingBuffer(c)`,
`c > 0`, by at least one `Add`, `Average()` returns, with a nil error, the sum of
the elements of `GetAll()`, accumulated oldest first starting from `0`, divided
by `Size()`; over exact numbers, a reachable buffer holding `[10, 20, 30]`
returns `20`. -/
theorem average_correctness {α : Type} [Zero α] [Add α] [Div α] [IntCast α]
    (c : Int) (hc : 0 < c) (vs : List α) (hne : vs ≠ []) :
    (∃ (rb : RingBuffer α) (xs : List α), build c vs = some rb ∧ rb.GetAll = some xs ∧
      rb.Size = (xs.length : Int) ∧
      rb.Average = some (xs.foldl (· + ·) 0 / ((rb.Size : Int) : α), none)) ∧
    (∀ (d : Int) (ws : List ℚ) (rb : RingBuffer ℚ), build d ws = some rb →
      rb.GetAll = some [10, 20, 30] → rb.Average = some (20, none)) := by
  constructor
  · obtain ⟨rb, hrb, hinv⟩ := build_inv c hc vs
    exact ⟨rb, _, hrb, inv_getAll (by omega) hinv, inv_size hinv,
      inv_average (by omega) hinv hne⟩
  · intro d ws rb hrb hget
    obtain ⟨hd, ws1, -, hinv⟩ := reachable_inv ⟨ws, hrb⟩
    have hC : 0 < d.toNat := by omega
    have hlast : lastValues d.toNat ws1 = [10, 20, 30] := by
      have := inv_getAll hC hinv
      rw [hget] at this
      exact (Option.some.inj this).symm
    have hws : ws1 ≠ [] := by
      intro h0
      rw [h0] at hlast
      simp [lastValues] at hlast
    rw [inv_average hC hinv hws, inv_size hinv, hlast]
    norm_num

theorem average_correctness_witness :
    (∃ (rb : RingBuffer ℚ) (xs : List ℚ), build 3 [10, 20, 30] = some rb ∧
      rb.GetAll = some xs ∧ rb.Size = (xs.length : Int) ∧
      rb.Average = some (xs.foldl (· + ·) 0 / ((rb.Size : Int) : ℚ), none)) ∧
    (∀ (d : Int) (ws : List ℚ) (rb : RingBuffer ℚ), build d ws = some rb →
      rb.GetAll = some [10, 20, 30] → rb.Average = some (20, none)) :=
  average_correctness 3 (by decide) [10, 20, 30] (by simp)

/-- C5 (empty-buffer failure): `Average()` returns an error exactly when
`size = 0`, and the error is then `buffer is empty` with value `0`; for every
`c ≥ 1` the buffer just returned by `NewRingBuffer(c)` gives that error. -/
theorem average_empty_failure {α : Type} [Zero α] [Add α] [Div α] [IntCast α]
    (rb : RingBuffer α) (c : Int) (hc : 1 ≤ c) :
    ((∃ (x : α) (msg : String), rb.Average = some (x, some msg)) ↔ rb.size = 0) ∧
    (rb.Average = some (0, some "buffer is empty") ↔ rb.size = 0) ∧
    (∃ rb0 : RingBuffer α, NewRingBuffer c = (some rb0, none) ∧
      rb0.Average = some (0, some "buffer is empty")) := by
  have hpos : rb.size = 0 → rb.Average = some (0, some "buffer is empty") := by
    intro h0
    simp [RingBuffer.Average, h0]
  have hneg : rb.size ≠ 0 → ∀ (x : α) (msg : String), rb.Average ≠ some (x, some msg) := by
    intro h0 x msg
    simp only [RingBuffer.Average, h0, if_false, bind, pure]
    cases rb.averageLoop rb.size.toNat 0 0 <;> simp
  refine ⟨⟨?_, fun h0 => ⟨0, _, hpos h0⟩⟩, ⟨?_, hpos⟩, ?_⟩
  · rintro ⟨x, msg, hx⟩
    by_contra h0
    exact hneg h0 x msg hx
  · intro hx
    by_contra h0
    exact hneg h0 _ _ hx
  · obtain ⟨rb0, hnew, hinv⟩ := @inv_new α _ c (by omega)
    refine ⟨rb0, hnew, ?_⟩
    have h0 : rb0.size = 0 := by simpa using hinv.size_eq
    simp [RingBuffer.Average, h0]

theorem average_empty_failure_witness :
    ((∃ (x : ℚ) (msg : String),
        (RingBuffer.mk [0, 0] 0 2 0 0 false).Average = some (x, some msg)) ↔
      (RingBuffer.mk ([0, 0] : List ℚ) 0 2 0 0 false).size = 0) ∧
    ((RingBuffer.mk ([0, 0] : List ℚ) 0 2 0 0 false).Average = some (0, some "buffer is empty") ↔
      (RingBuffer.mk ([0, 0] : List ℚ) 0 2 0 0 false).size = 0) ∧
    (∃ rb0 : RingBuffer ℚ, NewRingBuffer 2 = (some rb0, none) ∧
      rb0.Average = some (0, some "buffer is empty")) :=
  average_empty_failure (RingBuffer.mk [0, 0] 0 2 0 0 false) 2 (by decide)

/-- C6 (construction): for every integer capacity, `NewRingBuffer(capacity)`
returns an error, and no buffer, exactly when `capacity ≤ 0`; when it succeeds
the buffer is empty: `Size() = 0`, `Capacity() = capacity`, `isFull = false`,
`head = tail = 0`, and `GetAll()` is the empty sequence. -/
theorem construction {α : Type} [Zero α] (capacity : Int) :
    (((NewRingBuffer capacity : Option (RingBuffer α) × Option String).2 ≠ none ∧
        (NewRingBuffer capacity : Option (RingBuffer α) × Option String).1 = none) ↔
      capacity ≤ 0) ∧
    (capacity ≤ 0 →
      (NewRingBuffer capacity : Option (RingBuffer α) × Option String) =
        (none, some "capacity must be positive")) ∧
    (0 < capacity →
      ∃ rb : RingBuffer α, NewRingBuffer capacity = (some rb, none) ∧
        rb.Size = 0 ∧ rb.Capacity = capacity ∧ rb.isFull = false ∧
        rb.head = 0 ∧ rb.tail = 0 ∧ rb.GetAll = some []) := by
  by_cases hc : capacity ≤ 0
  · refine ⟨?_, ?_, ?_⟩
    · simp [NewRingBuffer, hc]
    · intro _
      simp [NewRingBuffer, hc]
    · intro h
      omega
  · refine ⟨?_, ?_, ?_⟩
    · simp [NewRingBuffer, hc]
    · intro h
      omega
    · intro _
      refine ⟨{ data := List.replicate capacity.toNat 0, size := 0, capacity := capacity,
                 head := 0, tail := 0, isFull := false },
        by simp only [NewRingBuffer, hc, if_false], ?_⟩
      simp [RingBuffer.Size, RingBuffer.Capacity, RingBuffer.GetAll]

theorem construction_witness :
    ((NewRingBuffer 0 : Option (RingBuffer ℚ) × Option String) =
        (none, some "capacity must be positive")) ∧
    (∃ rb : RingBuffer ℚ, NewRingBuffer 3 = (some rb, none) ∧
        rb.Size = 0 ∧ rb.Capacity = 3 ∧ rb.isFull = false ∧
        rb.head = 0 ∧ rb.tail = 0 ∧ rb.GetAll = some []) :=
  ⟨(construction 0).2.1 (by decide), (construction 3).2.2 (by decide)⟩

/-- C7 (single-step eviction): for every buffer state reachable from
`NewRingBuffer(c)` by calls of `Add`, and every value `v`: if the buffer is full
(`size = capacity`) with `GetAll() = [x1, x2, ..., xc]`, then after `Add(v)`
`GetAll() = [x2, ..., xc, v]` and `Size()` is still `c`; if it is not full with
`GetAll() = xs`, then after `Add(v)` `GetAll() = xs ++ [v]` and `Size()` has grown
by exactly one. -/
theorem single_step_eviction {α : Type} [Zero α] (c : Int) (rb : RingBuffer α)
    (hreach : Reachable c rb) (v : α) :
    ∃ (xs : List α) (rb1 : RingBuffer α), rb.GetAll = some xs ∧ rb.Add v = some rb1 ∧
      (rb.size = rb.capacity →
        (xs.length : Int) = c ∧ xs ≠ [] ∧
          rb1.GetAll = some (xs.tail ++ [v]) ∧ rb1.Size = c) ∧
      (rb.size ≠ rb.capacity →
        rb1.GetAll = some (xs ++ [v]) ∧ rb1.Size = rb.Size + 1) := by
  obtain ⟨hc, vs, -, hinv⟩ := reachable_inv hreach
  have hC : 0 < c.toNat := by omega
  obtain ⟨rb1, hadd, hinv1⟩ := inv_add hC hinv v
  refine ⟨lastValues c.toNat vs, rb1, inv_getAll hC hinv, hadd, ?_, ?_⟩
  · intro hfull
    rw [hinv.size_eq, hinv.capacity_eq] at hfull
    have hle : c.toNat ≤ vs.length := by omega
    have hlen : (lastValues c.toNat vs).length = c.toNat := by
      rw [length_lastValues]; omega
    refine ⟨by omega, ?_, ?_, ?_⟩
    · intro h0
      rw [h0] at hlen
      simp at hlen
      omega
    · rw [inv_getAll hC hinv1, lastValues_concat_of_le v hC hle]
    · rw [RingBuffer.Size, hinv1.size_eq]
      simp only [List.length_append, List.length_singleton]
      omega
  · intro hnot
    rw [hinv.size_eq, hinv.capacity_eq] at hnot
    have hlt : vs.length < c.toNat := by omega
    refine ⟨?_, ?_⟩
    · rw [inv_getAll hC hinv1, lastValues_concat_of_lt v hlt]
    · rw [RingBuffer.Size, RingBuffer.Size, hinv1.size_eq, hinv.size_eq]
      simp only [List.length_append, List.length_singleton]
      omega

theorem single_step_eviction_witness :
    ∃ (xs : List ℚ) (rb1 : RingBuffer ℚ),
      (RingBuffer.mk [1, 2] 2 2 0 0 true).GetAll = some xs ∧
      (RingBuffer.mk [1, 2] 2 2 0 0 true).Add 5 = some rb1 ∧
      ((RingBuffer.mk ([1, 2] : List ℚ) 2 2 0 0 true).size =
          (RingBuffer.mk ([1, 2] : List ℚ) 2 2 0 0 true).capacity →
        (xs.length : Int) = 2 ∧ xs ≠ [] ∧
          rb1.GetAll = some (xs.tail ++ [5]) ∧ rb1.Size = 2) ∧
      ((RingBuffer.mk ([1, 2] : List ℚ) 2 2 0 0 true).size ≠
          (RingBuffer.mk ([1, 2] : List ℚ) 2 2 0 0 true).capacity →
        rb1.GetAll = some (xs ++ [5]) ∧
          rb1.Size = (RingBuffer.mk ([1, 2] : List ℚ) 2 2 0 0 true).Size + 1) :=
  single_step_eviction 2 (RingBuffer.mk [1, 2] 2 2 0 0 true) ⟨[1, 2], by decide⟩ 5

/-- C8 (single-slot buffer): `NewRingBuffer(1)` succeeds, and for every
non-empty sequence of values added to it in order, `GetAll()` returns the
one-element sequence holding the last value added, and `Size() = 1`. -/
theorem single_slot_buffer {α : Type} [Zero α] (vs : List α) (hne : vs ≠ []) :
    (∃ rb0 : RingBuffer α, NewRingBuffer 1 = (some rb0, none)) ∧
    (∃ rb : RingBuffer α, build 1 vs = some rb ∧
      rb.GetAll = some [vs.getLast hne] ∧ rb.Size = 1) := by
  obtain ⟨rb0, hnew, -⟩ := @inv_new α _ 1 (by decide)
  obtain ⟨rb, hrb, hinv⟩ := build_inv (1 : Int) (by decide) vs
  have h1 : (1 : Int).toNat = 1 := rfl
  rw [h1] at hinv
  have hpos : 0 < vs.length := List.length_pos.mpr hne
  refine ⟨⟨rb0, hnew⟩, rb, hrb, ?_, ?_⟩
  · rw [inv_getAll (by decide) hinv, lastValues_one hne]
  · rw [RingBuffer.Size, hinv.size_eq]
    omega

theorem single_slot_buffer_witness :
    (∃ rb0 : RingBuffer ℚ, NewRingBuffer 1 = (some rb0, none)) ∧
    (∃ rb : RingBuffer ℚ, build 1 [5, 6, 7] = some rb ∧
      rb.GetAll = some [([5, 6, 7] : List ℚ).getLast (by simp)] ∧ rb.Size = 1) :=
  single_slot_buffer [5, 6, 7] (by simp)

/-- C9 (end-to-end scenario): after `NewRingBuffer(3)` followed by `Add(1.0)`,
`Add(2.0)`, `Add(3.0)`, `Add(4.0)` in that order, `Size() = 3`,
`GetAll() = [2.0, 3.0, 4.0]`, and `Average()` returns `3.0` with no error. -/
theorem end_to_end_scenario :
    ∃ rb : RingBuffer ℚ, build 3 [1, 2, 3, 4] = some rb ∧
      rb.Size = 3 ∧ rb.GetAll = some [2, 3, 4] ∧ rb.Average = some (3, none) := by
  obtain ⟨rb, hrb, hinv⟩ := build_inv (3 : Int) (by decide) ([1, 2, 3, 4] : List ℚ)
  have h3 : (3 : Int).toNat = 3 := rfl
  rw [h3] at hinv
  have hlast : lastValues 3 ([1, 2, 3, 4] : List ℚ) = [2, 3, 4] := rfl
  have hsize : rb.size = 3 := by
    rw [hinv.size_eq]
    rfl
  refine ⟨rb, hrb, hsize, ?_, ?_⟩
  · rw [inv_getAll (by decide) hinv, hlast]
  · rw [inv_average (by decide) hinv (by simp), hlast, hsize]
    norm_num

/-- C10 (insert never fails): for every buffer state reachable from a successful
`NewRingBuffer(c)` by calls of `Add`, and every value `v`, `Add(v)` does not
panic: the modulus `rb.capacity` is non-zero and the written index `rb.tail`
satisfies `0 ≤ tail < len(data)`; every index `(head + i) % capacity` read by
`GetAll` and `Average` for `0 ≤ i < size` is within `len(data)`, and neither of
the two panics. -/
theorem insert_never_fails {α : Type} [Zero α] [Add α] [Div α] [IntCast α]
    (c : Int) (rb : RingBuffer α) (hreach : Reachable c rb) (v : α) :
    (∃ rb1 : RingBuffer α, rb.Add v = some rb1) ∧
    rb.capacity ≠ 0 ∧ 0 ≤ rb.tail ∧ rb.tail < (rb.data.length : Int) ∧
    (∀ i : Int, 0 ≤ i → i < rb.size →
      ∃ idx : Int, goRem (rb.head + i) rb.capacity = some idx ∧
        0 ≤ idx ∧ idx < (rb.data.length : Int)) ∧
    (∃ xs : List α, rb.GetAll = some xs) ∧
    (∃ r : α × Option String, rb.Average = some r) := by
  obtain ⟨hc, vs, -, hinv⟩ := reachable_inv hreach
  have hC : 0 < c.toNat := by omega
  obtain ⟨rb1, hadd, -⟩ := inv_add hC hinv v
  refine ⟨⟨rb1, hadd⟩, ?_, ?_, ?_, ?_, ⟨_, inv_getAll hC hinv⟩, ?_⟩
  · rw [hinv.capacity_eq]
    omega
  · rw [hinv.tail_eq]
    omega
  · rw [hinv.tail_eq, hinv.length_data]
    exact_mod_cast Nat.mod_lt _ hC
  · intro i hi0 _
    have hcast : rb.head + i =
        (((vs.length - min vs.length c.toNat) % c.toNat + i.toNat : Nat) : Int) := by
      rw [hinv.head_eq]
      push_cast
      omega
    refine ⟨_, by rw [hcast, hinv.capacity_eq, goRem_natCast _ _ hC], by omega, ?_⟩
    rw [hinv.length_data]
    exact_mod_cast Nat.mod_lt _ hC
  · by_cases hvs : vs = []
    · have h0 : rb.size = 0 := by
        rw [hinv.size_eq, hvs]
        simp
      exact ⟨(0, some "buffer is empty"), by simp only [RingBuffer.Average, h0, if_true]⟩
    · exact ⟨_, inv_average hC hinv hvs⟩

theorem insert_never_fails_witness :
    (∃ rb1 : RingBuffer ℚ, (RingBuffer.mk [4, 2, 3] 3 3 1 1 true).Add 9 = some rb1) ∧
    (RingBuffer.mk ([4, 2, 3] : List ℚ) 3 3 1 1 true).capacity ≠ 0 ∧
    0 ≤ (RingBuffer.mk ([4, 2, 3] : List ℚ) 3 3 1 1 true).tail ∧
    (RingBuffer.mk ([4, 2, 3] : List ℚ) 3 3 1 1 true).tail <
      ((RingBuffer.mk ([4, 2, 3] : List ℚ) 3 3 1 1 true).data.length : Int) ∧
    (∀ i : Int, 0 ≤ i → i < (RingBuffer.mk ([4, 2, 3] : List ℚ) 3 3 1 1 true).size →
      ∃ idx : Int,
        goRem ((RingBuffer.mk ([4, 2, 3] : List ℚ) 3 3 1 1 true).head + i)
          (RingBuffer.mk ([4, 2, 3] : List ℚ) 3 3 1 1 true).capacity = some idx ∧
        0 ≤ idx ∧
        idx < ((RingBuffer.mk ([4, 2, 3] : List ℚ) 3 3 1 1 true).data.length : Int)) ∧
    (∃ xs : List ℚ, (RingBuffer.mk [4, 2, 3] 3 3 1 1 true).GetAll = some xs) ∧
    (∃ r : ℚ × Option String, (RingBuffer.mk [4, 2, 3] 3 3 1 1 true).Average = some r) :=
  insert_never_fails 3 (RingBuffer.mk [4, 2, 3] 3 3 1 1 true) ⟨[1, 2, 3, 4], by decide⟩ 9


/-! ## Further facts about the operations -/

theorem sliceSet_length {α : Type} {s r : List α} {i : Int} {v : α}
    (h : sliceSet s i v = some r) : r.length = s.length := by
  unfold sliceSet at h
  split at h
  · cases h
    simp
  · exact Option.noConfusion h

theorem getAllLoop_length {α : Type} (rb : RingBuffer α) :
    ∀ (n : Nat) (i : Int) (result r : List α),
      rb.getAllLoop n i result = some r → r.length = result.length := by
  intro n
  induction n with
  | zero =>
    intro i result r h
    simp only [RingBuffer.getAllLoop] at h
    cases h
    rfl
  | succ n ih =>
    intro i result r h
    rw [getAllLoop_succ] at h
    cases hread : rb.readAt i with
    | none => rw [hread] at h; exact Option.noConfusion h
    | some x =>
      rw [hread, Option.some_bind] at h
      cases hset : sliceSet result i x with
      | none => rw [hset] at h; exact Option.noConfusion h
      | some r1 =>
        rw [hset, Option.some_bind] at h
        rw [ih _ _ _ h, sliceSet_length hset]

/-- The result of `GetAll`, when it returns, has `size` elements. -/
theorem getAll_length {α : Type} [Zero α] (rb : RingBuffer α) (xs : List α)
    (h : rb.GetAll = some xs) : (xs.length : Int) = rb.size := by
  unfold RingBuffer.GetAll at h
  by_cases h0 : rb.size = 0
  · simp only [h0, if_true] at h
    cases h
    simp [h0]
  · simp only [h0, if_false, makeSlice, bind] at h
    by_cases hneg : rb.size < 0
    · simp [hneg] at h
    · simp only [hneg, if_false, Option.some_bind] at h
      rw [getAllLoop_length rb _ _ _ _ h, List.length_replicate]
      omega

theorem inv_of_build {α : Type} [Zero α] {c : Int} {vs : List α} {rb : RingBuffer α}
    (hc : 0 < c) (h : build c vs = some rb) : Inv c.toNat vs rb := by
  obtain ⟨rb1, h1, hinv⟩ := build_inv c hc vs
  rw [h] at h1
  cases h1
  exact hinv

theorem build_concat {α : Type} [Zero α] (c : Int) (vs : List α) (v : α) :
    build c (vs ++ [v]) = (build c vs).bind (fun rb => rb.Add v) := by
  unfold build
  cases (NewRingBuffer c : Option (RingBuffer α) × Option String).1 with
  | none => rfl
  | some rb0 =>
    simp only [Option.some_bind, addAll_append]
    congr 1
    funext r
    simp [RingBuffer.addAll]

/-- The reference model keeps exactly the last `C` values added. -/
theorem windowOf_eq_lastValues {α : Type} (C : Nat) (vs : List α) :
    windowOf C vs = lastValues C vs := by
  induction vs using List.reverseRecOn with
  | nil => simp [windowOf, lastValues]
  | append_singleton vs v ih =>
    unfold windowOf at ih ⊢
    rw [List.foldl_append, List.foldl_cons, List.foldl_nil, ih, windowInsert]
    by_cases hC : C = 0
    · subst hC
      simp [lastValues]
    · by_cases hlt : vs.length < C
      · rw [lastValues_of_length_le (Nat.le_of_lt hlt)]
      · have hle : C ≤ vs.length := by omega
        have hlen : (lastValues C vs).length = C := by
          rw [length_lastValues]; omega
        rw [lastValues_concat_of_le v (by omega) hle,
          lastValues_concat_of_le v (by omega) (by omega : C ≤ (lastValues C vs).length),
          lastValues_of_length_le (by omega : (lastValues C vs).length ≤ C)]

/-- What `Add` returns on a buffer whose modulus is positive and whose write
index is within the storage. -/
theorem add_eq {α : Type} (rb : RingBuffer α) (v : α) (hcap : rb.capacity ≠ 0)
    (ht0 : 0 ≤ rb.tail) (ht : rb.tail < (rb.data.length : Int)) :
    rb.Add v = some
      { data := rb.data.set rb.tail.toNat v
        size := if rb.isFull then rb.size else rb.size + 1
        capacity := rb.capacity
        head := if rb.isFull then Int.tmod (rb.head + 1) rb.capacity else rb.head
        tail := Int.tmod (rb.tail + 1) rb.capacity
        isFull := decide ((if rb.isFull then rb.size else rb.size + 1) = rb.capacity) } := by
  obtain ⟨data, size, capacity, head, tail, isFull⟩ := rb
  simp only at hcap ht0 ht
  cases isFull <;>
    simp [RingBuffer.Add, goRem, sliceSet, hcap, ht0, ht]

/-! ## The claims of the specification, continued -/

/-- C11 (read-only observers): `GetAll()`, `Average()`, `Size()` and
`Capacity()` leave every field of the buffer (`data`, `size`, `capacity`,
`head`, `tail`, `isFull`) unchanged, so calling any of them again with no `Add`
in between returns the same result; `GetAll()` has length `Size()` and is the
empty sequence when `size = 0`. -/
theorem read_only_observers {α : Type} [Zero α] [Add α] [Div α] [IntCast α]
    (rb : RingBuffer α) (o : Observer) (out : Observed α) (rb1 : RingBuffer α)
    (h : observe rb o = some (out, rb1)) :
    (rb1.data = rb.data ∧ rb1.size = rb.size ∧ rb1.capacity = rb.capacity ∧
      rb1.head = rb.head ∧ rb1.tail = rb.tail ∧ rb1.isFull = rb.isFull) ∧
    observe rb1 o = some (out, rb1) ∧
    (∀ o2 : Observer, observe rb1 o2 = observe rb o2) ∧
    (∀ xs : List α, rb.GetAll = some xs → (xs.length : Int) = rb.Size) ∧
    (rb.size = 0 → rb.GetAll = some []) := by
  have hrb : rb1 = rb := by
    cases o with
    | getAll =>
      simp only [observe, Option.map_eq_some'] at h
      obtain ⟨xs, -, hxs⟩ := h
      exact (congrArg Prod.snd hxs).symm
    | average =>
      simp only [observe, Option.map_eq_some'] at h
      obtain ⟨r, -, hr⟩ := h
      exact (congrArg Prod.snd hr).symm
    | size =>
      simp only [observe] at h
      exact (congrArg Prod.snd (Option.some.inj h)).symm
    | capacity =>
      simp only [observe] at h
      exact (congrArg Prod.snd (Option.some.inj h)).symm
  subst hrb
  refine ⟨⟨rfl, rfl, rfl, rfl, rfl, rfl⟩, h, fun _ => rfl, ?_, ?_⟩
  · intro xs hxs
    exact getAll_length rb1 xs hxs
  · intro h0
    simp [RingBuffer.GetAll, h0]

theorem read_only_observers_witness :
    ((RingBuffer.mk ([4, 2, 3] : List ℚ) 3 3 1 1 true).data =
        (RingBuffer.mk ([4, 2, 3] : List ℚ) 3 3 1 1 true).data ∧
      (RingBuffer.mk ([4, 2, 3] : List ℚ) 3 3 1 1 true).size =
        (RingBuffer.mk ([4, 2, 3] : List ℚ) 3 3 1 1 true).size ∧
      (RingBuffer.mk ([4, 2, 3] : List ℚ) 3 3 1 1 true).capacity =
        (RingBuffer.mk ([4, 2, 3] : List ℚ) 3 3 1 1 true).capacity ∧
      (RingBuffer.mk ([4, 2, 3] : List ℚ) 3 3 1 1 true).head =
        (RingBuffer.mk ([4, 2, 3] : List ℚ) 3 3 1 1 true).head ∧
      (RingBuffer.mk ([4, 2, 3] : List ℚ) 3 3 1 1 true).tail =
        (RingBuffer.mk ([4, 2, 3] : List ℚ) 3 3 1 1 true).tail ∧
      (RingBuffer.mk ([4, 2, 3] : List ℚ) 3 3 1 1 true).isFull =
        (RingBuffer.mk ([4, 2, 3] : List ℚ) 3 3 1 1 true).isFull) ∧
    observe (RingBuffer.mk ([4, 2, 3] : List ℚ) 3 3 1 1 true) Observer.getAll =
      some (Observed.values [2, 3, 4], RingBuffer.mk [4, 2, 3] 3 3 1 1 true) ∧
    (∀ o2 : Observer,
      observe (RingBuffer.mk ([4, 2, 3] : List ℚ) 3 3 1 1 true) o2 =
        observe (RingBuffer.mk ([4, 2, 3] : List ℚ) 3 3 1 1 true) o2) ∧
    (∀ xs : List ℚ, (RingBuffer.mk ([4, 2, 3] : List ℚ) 3 3 1 1 true).GetAll = some xs →
      (xs.length : Int) = (RingBuffer.mk ([4, 2, 3] : List ℚ) 3 3 1 1 true).Size) ∧
    ((RingBuffer.mk ([4, 2, 3] : List ℚ) 3 3 1 1 true).size = 0 →
      (RingBuffer.mk ([4, 2, 3] : List ℚ) 3 3 1 1 true).GetAll = some []) :=
  read_only_observers (RingBuffer.mk [4, 2, 3] 3 3 1 1 true) Observer.getAll
    (Observed.values [2, 3, 4]) (RingBuffer.mk [4, 2, 3] 3 3 1 1 true) (by decide)

/-- C12 (index bounds invariant): for every buffer state reachable from a
successful `NewRingBuffer(c)` by calls of `Add`, `0 ≤ head < capacity` and
`0 ≤ tail < capacity`. -/
theorem index_bounds_invariant {α : Type} [Zero α] (c : Int) (rb : RingBuffer α)
    (hreach : Reachable c rb) :
    0 ≤ rb.head ∧ rb.head < rb.capacity ∧ 0 ≤ rb.tail ∧ rb.tail < rb.capacity := by
  obtain ⟨hc, vs, -, hinv⟩ := reachable_inv hreach
  have hC : 0 < c.toNat := by omega
  rw [hinv.head_eq, hinv.tail_eq, hinv.capacity_eq]
  have h1 := Nat.mod_lt (vs.length - min vs.length c.toNat) hC
  have h2 := Nat.mod_lt vs.length hC
  refine ⟨by omega, by exact_mod_cast h1, by omega, by exact_mod_cast h2⟩

theorem index_bounds_invariant_witness :
    0 ≤ (RingBuffer.mk ([4, 5, 3] : List ℚ) 3 3 2 2 true).head ∧
    (RingBuffer.mk ([4, 5, 3] : List ℚ) 3 3 2 2 true).head <
      (RingBuffer.mk ([4, 5, 3] : List ℚ) 3 3 2 2 true).capacity ∧
    0 ≤ (RingBuffer.mk ([4, 5, 3] : List ℚ) 3 3 2 2 true).tail ∧
    (RingBuffer.mk ([4, 5, 3] : List ℚ) 3 3 2 2 true).tail <
      (RingBuffer.mk ([4, 5, 3] : List ℚ) 3 3 2 2 true).capacity :=
  index_bounds_invariant 3 (RingBuffer.mk [4, 5, 3] 3 3 2 2 true)
    ⟨[1, 2, 3, 4, 5], by decide⟩

/-- C13 (derived full flag): for every buffer state reachable from a successful
`NewRingBuffer(c)` by calls of `Add`, the freshly constructed state included,
the stored flag `isFull` is true if and only if `size = capacity`. -/
theorem derived_full_flag {α : Type} [Zero α] (c : Int) (rb : RingBuffer α)
    (hreach : Reachable c rb) :
    rb.isFull = true ↔ rb.size = rb.capacity := by
  obtain ⟨hc, vs, -, hinv⟩ := reachable_inv hreach
  rw [hinv.isFull_eq, hinv.size_eq, hinv.capacity_eq, decide_eq_true_iff]
  omega

theorem derived_full_flag_witness :
    (RingBuffer.mk ([4, 5, 3] : List ℚ) 3 3 2 2 true).isFull = true ↔
      (RingBuffer.mk ([4, 5, 3] : List ℚ) 3 3 2 2 true).size =
        (RingBuffer.mk ([4, 5, 3] : List ℚ) 3 3 2 2 true).capacity :=
  derived_full_flag 3 (RingBuffer.mk [4, 5, 3] 3 3 2 2 true) ⟨[1, 2, 3, 4, 5], by decide⟩

/-- C14 (full is absorbing): for every reachable buffer state with
`size = capacity` (so `isFull` is true) and every value `v`, the state after
`Add(v)` again has `size = capacity` and `isFull` true; hence after any further
sequence of calls of `Add` the buffer is still full. -/
theorem full_is_absorbing {α : Type} [Zero α] (c : Int) (rb : RingBuffer α)
    (hreach : Reachable c rb) (hfull : rb.size = rb.capacity) (v : α) (ws : List α) :
    rb.isFull = true ∧
    (∃ rb1 : RingBuffer α, rb.Add v = some rb1 ∧
      rb1.size = rb1.capacity ∧ rb1.isFull = true) ∧
    (∃ rb2 : RingBuffer α, rb.addAll ws = some rb2 ∧
      rb2.size = rb2.capacity ∧ rb2.isFull = true) := by
  obtain ⟨hc, vs, -, hinv⟩ := reachable_inv hreach
  have hC : 0 < c.toNat := by omega
  rw [hinv.size_eq, hinv.capacity_eq] at hfull
  have hle : c.toNat ≤ vs.length := by omega
  have key : ∀ (us : List α) (r : RingBuffer α), Inv c.toNat (vs ++ us) r →
      r.size = r.capacity ∧ r.isFull = true := by
    intro us r hr
    have hlen : c.toNat ≤ (vs ++ us).length := by
      rw [List.length_append]; omega
    rw [hr.size_eq, hr.capacity_eq, hr.isFull_eq, decide_eq_true_iff]
    exact ⟨by omega, hlen⟩
  refine ⟨?_, ?_, ?_⟩
  · rw [hinv.isFull_eq, decide_eq_true_iff]
    exact hle
  · obtain ⟨rb1, hadd, hinv1⟩ := inv_add hC hinv v
    exact ⟨rb1, hadd, key [v] rb1 hinv1⟩
  · obtain ⟨rb2, hall, hinv2⟩ := inv_addAll hC ws hinv
    exact ⟨rb2, hall, key ws rb2 hinv2⟩

theorem full_is_absorbing_witness :
    (RingBuffer.mk ([1, 2] : List ℚ) 2 2 0 0 true).isFull = true ∧
    (∃ rb1 : RingBuffer ℚ, (RingBuffer.mk ([1, 2] : List ℚ) 2 2 0 0 true).Add 7 = some rb1 ∧
      rb1.size = rb1.capacity ∧ rb1.isFull = true) ∧
    (∃ rb2 : RingBuffer ℚ,
      (RingBuffer.mk ([1, 2] : List ℚ) 2 2 0 0 true).addAll [8, 9, 10] = some rb2 ∧
      rb2.size = rb2.capacity ∧ rb2.isFull = true) :=
  full_is_absorbing 2 (RingBuffer.mk [1, 2] 2 2 0 0 true) ⟨[1, 2], by decide⟩
    (by decide) 7 [8, 9, 10]

/-- C16 (field-level effect of `Add`): on a reachable buffer `Add(v)` writes `v`
at the old `tail`, advances `tail` to `(tail + 1) mod capacity`, leaves
`capacity` and every storage slot other than the old `tail` as they were; if the
buffer was not full, `size` grows by one and `head` is unchanged; if it was
full, `head` advances to `(head + 1) mod capacity` and `size` stays equal to
`capacity`. -/
theorem add_field_effect {α : Type} [Zero α] (c : Int) (rb : RingBuffer α)
    (hreach : Reachable c rb) (v : α) :
    ∃ rb1 : RingBuffer α, rb.Add v = some rb1 ∧
      rb1.capacity = rb.capacity ∧
      sliceGet rb1.data rb.tail = some v ∧
      (∀ j : Int, j ≠ rb.tail → sliceGet rb1.data j = sliceGet rb.data j) ∧
      rb1.tail = (rb.tail + 1) % rb.capacity ∧
      (rb.isFull = false → rb1.size = rb.size + 1 ∧ rb1.head = rb.head) ∧
      (rb.isFull = true →
        rb1.head = (rb.head + 1) % rb.capacity ∧ rb1.size = rb.size ∧
          rb.size = rb.capacity) := by
  obtain ⟨hc, vs, -, hinv⟩ := reachable_inv hreach
  have hC : 0 < c.toNat := by omega
  have hcap : 0 < rb.capacity := by rw [hinv.capacity_eq]; omega
  have hh0 : 0 ≤ rb.head := by rw [hinv.head_eq]; omega
  have ht0 : 0 ≤ rb.tail := by rw [hinv.tail_eq]; omega
  have ht : rb.tail < (rb.data.length : Int) := by
    rw [hinv.tail_eq, hinv.length_data]
    exact_mod_cast Nat.mod_lt _ hC
  have hlt : rb.tail.toNat < rb.data.length := by omega
  refine ⟨_, add_eq rb v (by omega) ht0 ht, rfl, ?_, ?_, ?_, ?_, ?_⟩
  · have hneg : ¬ rb.tail < 0 := by omega
    simp only [sliceGet, hneg, if_false]
    rw [List.getElem?_set, if_pos rfl, if_pos hlt]
  · intro j hj
    by_cases hj0 : j < 0
    · simp only [sliceGet, hj0, if_true]
    · have hne : rb.tail.toNat ≠ j.toNat := by omega
      simp only [sliceGet, hj0, if_false]
      rw [List.getElem?_set, if_neg hne]
  · exact Int.tmod_eq_emod (by omega) (by omega)
  · intro hf
    simp [hf]
  · intro hf
    refine ⟨?_, ?_, ?_⟩
    · simp only [hf, if_true]
      exact Int.tmod_eq_emod (by omega) (by omega)
    · simp [hf]
    · rw [hinv.isFull_eq, decide_eq_true_iff] at hf
      rw [hinv.size_eq, hinv.capacity_eq]
      omega

theorem add_field_effect_witness :
    ∃ rb1 : RingBuffer ℚ, (RingBuffer.mk ([4, 2, 3] : List ℚ) 3 3 1 1 true).Add 9 = some rb1 ∧
      rb1.capacity = (RingBuffer.mk ([4, 2, 3] : List ℚ) 3 3 1 1 true).capacity ∧
      sliceGet rb1.data (RingBuffer.mk ([4, 2, 3] : List ℚ) 3 3 1 1 true).tail = some 9 ∧
      (∀ j : Int, j ≠ (RingBuffer.mk ([4, 2, 3] : List ℚ) 3 3 1 1 true).tail →
        sliceGet rb1.data j =
          sliceGet (RingBuffer.mk ([4, 2, 3] : List ℚ) 3 3 1 1 true).data j) ∧
      rb1.tail =
        ((RingBuffer.mk ([4, 2, 3] : List ℚ) 3 3 1 1 true).tail + 1) %
          (RingBuffer.mk ([4, 2, 3] : List ℚ) 3 3 1 1 true).capacity ∧
      ((RingBuffer.mk ([4, 2, 3] : List ℚ) 3 3 1 1 true).isFull = false →
        rb1.size = (RingBuffer.mk ([4, 2, 3] : List ℚ) 3 3 1 1 true).size + 1 ∧
          rb1.head = (RingBuffer.mk ([4, 2, 3] : List ℚ) 3 3 1 1 true).head) ∧
      ((RingBuffer.mk ([4, 2, 3] : List ℚ) 3 3 1 1 true).isFull = true →
        rb1.head =
            ((RingBuffer.mk ([4, 2, 3] : List ℚ) 3 3 1 1 true).head + 1) %
              (RingBuffer.mk ([4, 2, 3] : List ℚ) 3 3 1 1 true).capacity ∧
          rb1.size = (RingBuffer.mk ([4, 2, 3] : List ℚ) 3 3 1 1 true).size ∧
          (RingBuffer.mk ([4, 2, 3] : List ℚ) 3 3 1 1 true).size =
            (RingBuffer.mk ([4, 2, 3] : List ℚ) 3 3 1 1 true).capacity) :=
  add_field_effect 3 (RingBuffer.mk [4, 2, 3] 3 3 1 1 true) ⟨[1, 2, 3, 4], by decide⟩ 9

/-- C17 (sliding-window characterisation): for every capacity `c > 0` and every
sequence `vs` of `n ≥ 0` values added in order to `NewRingBuffer(c)`,
`Size() = min(n, c)` and `GetAll()` is the last `min(n, c)` elements of `vs` in
insertion order, which is what the reference model 'append, then keep the last
`c`' holds. -/
theorem sliding_window {α : Type} [Zero α] (c : Int) (hc : 0 < c) (vs : List α) :
    ∃ rb : RingBuffer α, build c vs = some rb ∧
      rb.Size = min (vs.length : Int) c ∧
      rb.GetAll = some (vs.drop (vs.length - min vs.length c.toNat)) ∧
      rb.GetAll = some (windowOf c.toNat vs) := by
  obtain ⟨rb, hrb, hinv⟩ := build_inv c hc vs
  have hC : 0 < c.toNat := by omega
  have hsub : vs.length - min vs.length c.toNat = vs.length - c.toNat := by omega
  refine ⟨rb, hrb, ?_, ?_, ?_⟩
  · rw [RingBuffer.Size, hinv.size_eq]
    omega
  · rw [inv_getAll hC hinv, hsub, lastValues]
  · rw [inv_getAll hC hinv, windowOf_eq_lastValues]

theorem sliding_window_witness :
    ∃ rb : RingBuffer ℚ, build 3 [1, 2, 3, 4, 5] = some rb ∧
      rb.Size = min ((([1, 2, 3, 4, 5] : List ℚ).length : Nat) : Int) 3 ∧
      rb.GetAll = some (([1, 2, 3, 4, 5] : List ℚ).drop
        (([1, 2, 3, 4, 5] : List ℚ).length -
          min ([1, 2, 3, 4, 5] : List ℚ).length (3 : Int).toNat)) ∧
      rb.GetAll = some (windowOf (3 : Int).toNat [1, 2, 3, 4, 5]) :=
  sliding_window 3 (by decide) [1, 2, 3, 4, 5]

/-- C19 (representation invariant): for every buffer state reachable from a
successful `NewRingBuffer(c)` by calls of `Add`, `len(data) = capacity = c` and
`tail = (head + size) mod capacity`; while the buffer is not full `head = 0` and
`tail = size`, and whenever it is full `head = tail`. -/
theorem representation_invariant {α : Type} [Zero α] (c : Int) (rb : RingBuffer α)
    (hreach : Reachable c rb) :
    (rb.data.length : Int) = rb.capacity ∧ rb.capacity = c ∧
    rb.tail = (rb.head + rb.size) % rb.capacity ∧
    (rb.size ≠ rb.capacity → rb.head = 0 ∧ rb.tail = rb.size) ∧
    (rb.size = rb.capacity → rb.head = rb.tail) ∧
    (rb.isFull = false → rb.head = 0 ∧ rb.tail = rb.size) ∧
    (rb.isFull = true → rb.head = rb.tail) := by
  obtain ⟨hc, vs, -, hinv⟩ := reachable_inv hreach
  have hC : 0 < c.toNat := by omega
  have hnot : vs.length < c.toNat → rb.head = 0 ∧ rb.tail = rb.size := by
    intro hlt
    have h0 : vs.length - min vs.length c.toNat = 0 := by omega
    rw [hinv.head_eq, hinv.tail_eq, hinv.size_eq, h0, Nat.zero_mod, Nat.mod_eq_of_lt hlt]
    exact ⟨rfl, by congr 1; omega⟩
  have hfull : c.toNat ≤ vs.length → rb.head = rb.tail := by
    intro hle
    have h0 : vs.length - min vs.length c.toNat = vs.length - c.toNat := by omega
    rw [hinv.head_eq, hinv.tail_eq, h0, ← Nat.mod_eq_sub_mod hle]
  refine ⟨?_, ?_, ?_, ?_, ?_, ?_, ?_⟩
  · rw [hinv.length_data, hinv.capacity_eq]
  · rw [hinv.capacity_eq]
    omega
  · have hsum : vs.length - min vs.length c.toNat + min vs.length c.toNat = vs.length := by
      omega
    rw [hinv.head_eq, hinv.tail_eq, hinv.size_eq, hinv.capacity_eq]
    rw [← Int.natCast_add, ← Int.natCast_mod, Nat.mod_add_mod, hsum]
  · intro hne
    rw [hinv.size_eq, hinv.capacity_eq] at hne
    exact hnot (by omega)
  · intro heq
    rw [hinv.size_eq, hinv.capacity_eq] at heq
    exact hfull (by omega)
  · intro hf
    rw [hinv.isFull_eq, decide_eq_false_iff_not] at hf
    exact hnot (by omega)
  · intro hf
    rw [hinv.isFull_eq, decide_eq_true_iff] at hf
    exact hfull hf

theorem representation_invariant_witness :
    ((RingBuffer.mk ([4, 5, 3] : List ℚ) 3 3 2 2 true).data.length : Int) =
      (RingBuffer.mk ([4, 5, 3] : List ℚ) 3 3 2 2 true).capacity ∧
    (RingBuffer.mk ([4, 5, 3] : List ℚ) 3 3 2 2 true).capacity = 3 ∧
    (RingBuffer.mk ([4, 5, 3] : List ℚ) 3 3 2 2 true).tail =
      ((RingBuffer.mk ([4, 5, 3] : List ℚ) 3 3 2 2 true).head +
          (RingBuffer.mk ([4, 5, 3] : List ℚ) 3 3 2 2 true).size) %
        (RingBuffer.mk ([4, 5, 3] : List ℚ) 3 3 2 2 true).capacity ∧
    ((RingBuffer.mk ([4, 5, 3] : List ℚ) 3 3 2 2 true).size ≠
        (RingBuffer.mk ([4, 5, 3] : List ℚ) 3 3 2 2 true).capacity →
      (RingBuffer.mk ([4, 5, 3] : List ℚ) 3 3 2 2 true).head = 0 ∧
        (RingBuffer.mk ([4, 5, 3] : List ℚ) 3 3 2 2 true).tail =
          (RingBuffer.mk ([4, 5, 3] : List ℚ) 3 3 2 2 true).size) ∧
    ((RingBuffer.mk ([4, 5, 3] : List ℚ) 3 3 2 2 true).size =
        (RingBuffer.mk ([4, 5, 3] : List ℚ) 3 3 2 2 true).capacity →
      (RingBuffer.mk ([4, 5, 3] : List ℚ) 3 3 2 2 true).head =
        (RingBuffer.mk ([4, 5, 3] : List ℚ) 3 3 2 2 true).tail) ∧
    ((RingBuffer.mk ([4, 5, 3] : List ℚ) 3 3 2 2 true).isFull = false →
      (RingBuffer.mk ([4, 5, 3] : List ℚ) 3 3 2 2 true).head = 0 ∧
        (RingBuffer.mk ([4, 5, 3] : List ℚ) 3 3 2 2 true).tail =
          (RingBuffer.mk ([4, 5, 3] : List ℚ) 3 3 2 2 true).size) ∧
    ((RingBuffer.mk ([4, 5, 3] : List ℚ) 3 3 2 2 true).isFull = true →
      (RingBuffer.mk ([4, 5, 3] : List ℚ) 3 3 2 2 true).head =
        (RingBuffer.mk ([4, 5, 3] : List ℚ) 3 3 2 2 true).tail) :=
  representation_invariant 3 (RingBuffer.mk [4, 5, 3] 3 3 2 2 true)
    ⟨[1, 2, 3, 4, 5], by decide⟩

/-! ## The driver loop -/

theorem build_average {α : Type} [Zero α] [Add α] [Div α] [IntCast α] {c : Int}
    {vs : List α} {rb : RingBuffer α} (hc : 0 < c) (hne : vs ≠ [])
    (h : build c vs = some rb) :
    rb.Average = some (meanOf (lastValues c.toNat vs), none) := by
  have hinv := inv_of_build hc h
  rw [inv_average (by omega) hinv hne, inv_size hinv]
  rfl

/-- One call of `Add` followed by `Average` on a buffer built from `vs`. -/
theorem build_add_average {α : Type} [Zero α] [Add α] [Div α] [IntCast α] {c : Int}
    {vs : List α} {rb : RingBuffer α} (hc : 0 < c) (h : build c vs = some rb) (v : α) :
    ∃ rb1 : RingBuffer α, rb.Add v = some rb1 ∧ build c (vs ++ [v]) = some rb1 ∧
      rb1.Average = some (meanOf (lastValues c.toNat (vs ++ [v])), none) := by
  obtain ⟨rb1, hadd, -⟩ := inv_add (by omega : 0 < c.toNat) (inv_of_build hc h) v
  have hb : build c (vs ++ [v]) = some rb1 := by
    rw [build_concat, h, Option.some_bind, hadd]
  exact ⟨rb1, hadd, hb, build_average hc (by simp) hb⟩

theorem newBufferOrFatal_eq {α : Type} [Zero α] (c : Int) (hc : 0 < c) :
    (newBufferOrFatal c : Option (RingBuffer α)) = build c [] := by
  have hc0 : ¬ c ≤ 0 := by omega
  simp [newBufferOrFatal, build, NewRingBuffer, hc0, RingBuffer.addAll]

theorem mainInit_inv {α : Type} [Zero α] :
    ∃ s : MainState α, mainInit = some s ∧ MainInv [] s := by
  obtain ⟨a, ha, -⟩ := build_inv (60 : Int) (by decide) ([] : List α)
  obtain ⟨b, hb, -⟩ := build_inv (300 : Int) (by decide) ([] : List α)
  refine ⟨{ rbTctl_1 := a, rbTccd1_1 := a, rbTccd2_1 := a, rbTctl_5 := b, rbTccd1_5 := b,
            rbTccd2_5 := b, counter := 0 }, ?_, ?_⟩
  · simp only [mainInit, newBufferOrFatal_eq (60 : Int) (by decide),
      newBufferOrFatal_eq (300 : Int) (by decide), ha, hb, bind, pure, Option.some_bind]
  · exact ⟨ha, ha, ha, hb, hb, hb, rfl⟩

theorem mainStep_inv {α : Type} [Zero α] [Add α] [Div α] [IntCast α]
    {hist : List (Sample α)} {s : MainState α} (h : MainInv hist s) (x : Sample α) :
    ∃ s1 : MainState α, mainStep s x = some (s1, reportOf (hist ++ [x])) ∧
      MainInv (hist ++ [x]) s1 := by
  obtain ⟨a1, ha1, hb1, hm1⟩ := build_add_average (by decide) h.tctl_1 x.tctl
  obtain ⟨a2, ha2, hb2, hm2⟩ := build_add_average (by decide) h.tccd1_1 x.tccd1
  obtain ⟨a3, ha3, hb3, hm3⟩ := build_add_average (by decide) h.tccd2_1 x.tccd2
  obtain ⟨a4, ha4, hb4, hm4⟩ := build_add_average (by decide) h.tctl_5 x.tctl
  obtain ⟨a5, ha5, hb5, hm5⟩ := build_add_average (by decide) h.tccd1_5 x.tccd1
  obtain ⟨a6, ha6, hb6, hm6⟩ := build_add_average (by decide) h.tccd2_5 x.tccd2
  refine ⟨{ rbTctl_1 := a1, rbTccd1_1 := a2, rbTccd2_1 := a3, rbTctl_5 := a4,
            rbTccd1_5 := a5, rbTccd2_5 := a6, counter := s.counter + 1 }, ?_, ?_⟩
  · simp only [mainStep, ha1, ha2, ha3, ha4, ha5, ha6, hm1, hm2, hm3, hm4, hm5, hm6, bind,
      pure, Option.some_bind, reportOf, List.map_append, List.map_cons, List.map_nil]
    rfl
  · refine ⟨?_, ?_, ?_, ?_, ?_, ?_, ?_⟩
    · simpa using hb1
    · simpa using hb2
    · simpa using hb3
    · simpa using hb4
    · simpa using hb5
    · simpa using hb6
    · simp [h.counter_eq]

/-- The loop of `main` never panics, and the report of each iteration is the
one expected from the readings so far. -/
theorem mainLoop_inv {α : Type} [Zero α] [Add α] [Div α] [IntCast α]
    (xs : List (Sample α)) :
    ∀ {hist : List (Sample α)} {s : MainState α}, MainInv hist s →
      ∃ s2 : MainState α,
        mainLoop s xs =
          some (s2, (List.range xs.length).map (fun i => reportOf (hist ++ xs.take (i + 1)))) ∧
        MainInv (hist ++ xs) s2 := by
  induction xs with
  | nil =>
    intro hist s h
    exact ⟨s, rfl, by simpa using h⟩
  | cons x xs ih =>
    intro hist s h
    obtain ⟨s1, hstep, hinv1⟩ := mainStep_inv h x
    obtain ⟨s2, hloop, hinv2⟩ := ih hinv1
    refine ⟨s2, ?_, by simpa using hinv2⟩
    simp only [mainLoop, hstep, hloop, Option.some_bind, List.length_cons,
      List.range_succ_eq_map, List.map_cons, List.map_map, List.take_succ_cons,
      List.take_zero]
    congr 3
    apply List.map_congr_left
    intro i _
    simp

theorem mainProgram_eq {α : Type} [Zero α] [Add α] [Div α] [IntCast α]
    (samples : List (Sample α)) :
    ∃ s : MainState α,
      mainProgram samples =
        some (s, (List.range samples.length).map (fun i => reportOf (samples.take (i + 1)))) := by
  obtain ⟨s0, hinit, hinv0⟩ := @mainInit_inv α _
  obtain ⟨s, hloop, -⟩ := mainLoop_inv samples hinv0
  exact ⟨s, by simpa [mainProgram, hinit] using hloop⟩

theorem getElem?_reports {α : Type} [Zero α] [Add α] [Div α] [IntCast α]
    (samples : List (Sample α)) (i : Nat) (rep : Report α)
    (h : ((List.range samples.length).map
      (fun i => reportOf (samples.take (i + 1))))[i]? = some rep) :
    i < samples.length ∧ rep = reportOf (samples.take (i + 1)) := by
  rw [List.getElem?_map] at h
  cases hr : (List.range samples.length)[i]? with
  | none => rw [hr] at h; exact Option.noConfusion h
  | some j =>
    rw [hr, Option.map_some'] at h
    have hlt : i < (List.range samples.length).length := by
      by_contra hge
      rw [List.getElem?_eq_none (by omega)] at hr
      exact Option.noConfusion hr
    rw [List.getElem?_eq_getElem hlt, List.getElem_range] at hr
    cases hr
    rw [List.length_range] at hlt
    exact ⟨hlt, (Option.some.inj h).symm⟩

/-- C15 (average is defined whenever the driver reports): for every `c > 0` and
every non-empty sequence of calls of `Add` applied to `NewRingBuffer(c)`,
`Size() ≥ 1` and `Average()` returns a nil error; therefore each of the six calls
of `Average()` in the loop body of `main`, which all follow an `Add` on the same
buffer, returns a nil error in every iteration. -/
theorem average_defined_when_reporting {α : Type} [Zero α] [Add α] [Div α] [IntCast α]
    (c : Int) (hc : 0 < c) (vs : List α) (hne : vs ≠ []) (samples : List (Sample α)) :
    (∃ (rb : RingBuffer α) (x : α), build c vs = some rb ∧ 1 ≤ rb.Size ∧
      rb.Average = some (x, none)) ∧
    (∃ (s : MainState α) (reps : List (Report α)),
      mainProgram samples = some (s, reps) ∧ reps.length = samples.length ∧
      ∀ rep ∈ reps,
        rep.tctlAvg_1.2 = none ∧ rep.tccd1Avg_1.2 = none ∧ rep.tccd2Avg_1.2 = none ∧
        rep.tctlAvg_5.2 = none ∧ rep.tccd1Avg_5.2 = none ∧ rep.tccd2Avg_5.2 = none) := by
  constructor
  · obtain ⟨rb, hrb, hinv⟩ := build_inv c hc vs
    have hpos : 0 < vs.length := List.length_pos.mpr hne
    refine ⟨rb, _, hrb, ?_, build_average hc hne hrb⟩
    rw [RingBuffer.Size, hinv.size_eq]
    omega
  · obtain ⟨s, hs⟩ := mainProgram_eq samples
    refine ⟨s, _, hs, by simp, ?_⟩
    intro rep hrep
    obtain ⟨i, -, hi⟩ := List.mem_map.mp hrep
    subst hi
    exact ⟨rfl, rfl, rfl, rfl, rfl, rfl⟩

theorem average_defined_when_reporting_witness :
    (∃ (rb : RingBuffer ℚ) (x : ℚ), build 60 [41, 43] = some rb ∧ 1 ≤ rb.Size ∧
      rb.Average = some (x, none)) ∧
    (∃ (s : MainState ℚ) (reps : List (Report ℚ)),
      mainProgram [Sample.mk 41 38 37, Sample.mk 43 39 36] = some (s, reps) ∧
      reps.length = [Sample.mk (41 : ℚ) 38 37, Sample.mk 43 39 36].length ∧
      ∀ rep ∈ reps,
        rep.tctlAvg_1.2 = none ∧ rep.tccd1Avg_1.2 = none ∧ rep.tccd2Avg_1.2 = none ∧
        rep.tctlAvg_5.2 = none ∧ rep.tccd1Avg_5.2 = none ∧ rep.tccd2Avg_5.2 = none) :=
  average_defined_when_reporting 60 (by decide) [41, 43] (by simp)
    [Sample.mk 41 38 37, Sample.mk 43 39 36]

/-- C18 (two windows on one stream): for capacities `0 < c1 ≤ c2` and any
sequence of `n` values added in the same order to `NewRingBuffer(c1)` and
`NewRingBuffer(c2)`, `GetAll()` of the `c1` buffer is a suffix of `GetAll()` of
the `c2` buffer; if `n ≤ c1` the two snapshots are identical and the two
`Average()` results are equal (a value with a nil error when `n ≥ 1`); `main`,
with capacities 60 and 300, reports once per reading, and the 1-minute and
5-minute averages reported in each of the first 60 iterations coincide. -/
theorem two_windows_one_stream {α : Type} [Zero α] [Add α] [Div α] [IntCast α]
    (c1 c2 : Int) (h1 : 0 < c1) (h12 : c1 ≤ c2) (vs : List α) (samples : List (Sample α)) :
    (∃ (rb1 rb2 : RingBuffer α) (xs1 xs2 : List α),
      build c1 vs = some rb1 ∧ build c2 vs = some rb2 ∧
      rb1.GetAll = some xs1 ∧ rb2.GetAll = some xs2 ∧ xs1 <:+ xs2 ∧
      ((vs.length : Int) ≤ c1 →
        xs1 = xs2 ∧ rb1.Average = rb2.Average ∧
          (vs ≠ [] → ∃ x : α, rb1.Average = some (x, none)))) ∧
    (∃ (s : MainState α) (reps : List (Report α)),
      mainProgram samples = some (s, reps) ∧ reps.length = samples.length ∧
      ∀ (i : Nat) (rep : Report α), reps[i]? = some rep → i < 60 →
        rep.tctlAvg_1 = rep.tctlAvg_5 ∧ rep.tccd1Avg_1 = rep.tccd1Avg_5 ∧
          rep.tccd2Avg_1 = rep.tccd2Avg_5) := by
  constructor
  · obtain ⟨rb1, hrb1, hinv1⟩ := build_inv c1 h1 vs
    obtain ⟨rb2, hrb2, hinv2⟩ := build_inv c2 (by omega) vs
    have hC1 : 0 < c1.toNat := by omega
    have hC2 : 0 < c2.toNat := by omega
    refine ⟨rb1, rb2, _, _, hrb1, hrb2, inv_getAll hC1 hinv1, inv_getAll hC2 hinv2, ?_, ?_⟩
    · exact List.drop_suffix_drop_left vs (by omega)
    · intro hn
      have e1 : lastValues c1.toNat vs = vs := lastValues_of_length_le (by omega)
      have e2 : lastValues c2.toNat vs = vs := lastValues_of_length_le (by omega)
      refine ⟨by rw [e1, e2], ?_, ?_⟩
      · by_cases hvs : vs = []
        · have z1 : rb1.size = 0 := by rw [hinv1.size_eq, hvs]; simp
          have z2 : rb2.size = 0 := by rw [hinv2.size_eq, hvs]; simp
          simp [RingBuffer.Average, z1, z2]
        · rw [build_average h1 hvs hrb1, build_average (by omega) hvs hrb2, e1, e2]
      · intro hvs
        exact ⟨_, build_average h1 hvs hrb1⟩
  · obtain ⟨s, hs⟩ := mainProgram_eq samples
    refine ⟨s, _, hs, by simp, ?_⟩
    intro i rep hrep hi
    obtain ⟨-, hrep1⟩ := getElem?_reports samples i rep hrep
    have hlen : ∀ f : Sample α → α,
        lastValues 60 ((samples.take (i + 1)).map f) =
          lastValues 300 ((samples.take (i + 1)).map f) := by
      intro f
      have hl : ((samples.take (i + 1)).map f).length ≤ 60 := by
        rw [List.length_map, List.length_take]
        omega
      rw [lastValues_of_length_le hl, lastValues_of_length_le (by omega)]
    subst hrep1
    refine ⟨?_, ?_, ?_⟩ <;> simp only [reportOf, hlen]

theorem two_windows_one_stream_witness :
    (∃ (rb1 rb2 : RingBuffer ℚ) (xs1 xs2 : List ℚ),
      build 2 [1, 2, 3] = some rb1 ∧ build 3 [1, 2, 3] = some rb2 ∧
      rb1.GetAll = some xs1 ∧ rb2.GetAll = some xs2 ∧ xs1 <:+ xs2) ∧
    (∃ (rb1 rb2 : RingBuffer ℚ) (xs1 xs2 : List ℚ),
      build 2 [7, 9] = some rb1 ∧ build 3 [7, 9] = some rb2 ∧
      rb1.GetAll = some xs1 ∧ rb2.GetAll = some xs2 ∧ xs1 <:+ xs2 ∧
      xs1 = xs2 ∧ rb1.Average = rb2.Average ∧
      ∃ x : ℚ, rb1.Average = some (x, none)) ∧
    (∃ (s : MainState ℚ) (reps : List (Report ℚ)),
      mainProgram [Sample.mk 41 38 37, Sample.mk 43 39 36] = some (s, reps) ∧
      reps.length = [Sample.mk (41 : ℚ) 38 37, Sample.mk 43 39 36].length ∧
      ∀ (i : Nat) (rep : Report ℚ), reps[i]? = some rep → i < 60 →
        rep.tctlAvg_1 = rep.tctlAvg_5 ∧ rep.tccd1Avg_1 = rep.tccd1Avg_5 ∧
          rep.tccd2Avg_1 = rep.tccd2Avg_5) := by
  obtain ⟨⟨a1, a2, as1, as2, ha1, ha2, hg1, hg2, hsuf, -⟩, -⟩ :=
    two_windows_one_stream 2 3 (by decide) (by decide) ([1, 2, 3] : List ℚ) []
  obtain ⟨⟨b1, b2, bs1, bs2, hb1, hb2, hh1, hh2, hsuf2, himp⟩, hmain⟩ :=
    two_windows_one_stream 2 3 (by decide) (by decide) ([7, 9] : List ℚ)
      [Sample.mk 41 38 37, Sample.mk 43 39 36]
  obtain ⟨heq, havg, hval⟩ := himp (by decide)
  exact ⟨⟨a1, a2, as1, as2, ha1, ha2, hg1, hg2, hsuf⟩,
    ⟨b1, b2, bs1, bs2, hb1, hb2, hh1, hh2, hsuf2, heq, havg, hval (by simp)⟩, hmain⟩

/-! ## Bounds on the mean -/

theorem bitLengthAux_spec :
    ∀ (fuel n : Nat), n ≤ fuel → n ≠ 0 →
      2 ^ (bitLengthAux fuel n - 1) ≤ n ∧ n < 2 ^ bitLengthAux fuel n := by
  intro fuel
  induction fuel with
  | zero =>
    intro n h0 hn
    omega
  | succ fuel ih =>
    intro n hle hn
    simp only [bitLengthAux, hn, if_false]
    by_cases h2 : n / 2 = 0
    · have h1 : n = 1 := by omega
      subst h1
      have hz : bitLengthAux fuel (1 / 2) = 0 := by
        cases fuel <;> simp [bitLengthAux]
      rw [hz]
      simp
    · obtain ⟨hlo, hhi⟩ := ih (n / 2) (by omega) h2
      have hb : 1 ≤ bitLengthAux fuel (n / 2) := by
        by_contra hb0
        have hb1 : bitLengthAux fuel (n / 2) = 0 := by omega
        rw [hb1] at hhi
        simp at hhi
        exact h2 hhi
      have hpow : 2 ^ bitLengthAux fuel (n / 2) = 2 * 2 ^ (bitLengthAux fuel (n / 2) - 1) := by
        rw [← pow_succ']
        congr 1
        omega
      constructor
      · rw [Nat.add_sub_cancel, hpow]
        omega
      · rw [pow_succ]
        omega

/-- For `n ≠ 0`, `bitLength n` is the number of binary digits of `n`. -/
theorem bitLength_spec (n : Nat) (hn : n ≠ 0) :
    2 ^ (bitLength n - 1) ≤ n ∧ n < 2 ^ bitLength n :=
  bitLengthAux_spec n n (le_refl n) hn


theorem roundNat_of_le (n : Nat) (e : Int) (hn : n ≠ 0) (h : bitLength n ≤ 53) :
    roundNat n e = (n * 2 ^ (53 - bitLength n), e - ((53 - bitLength n : Nat) : Int)) := by
  simp only [roundNat, hn, h, if_false, if_true]

theorem roundNat_of_lt (n : Nat) (e : Int) (hn : n ≠ 0) (h : 53 < bitLength n) :
    roundNat n e =
      (if (if 2 ^ (bitLength n - 53 - 1) < n % 2 ^ (bitLength n - 53) ∨
              (n % 2 ^ (bitLength n - 53) = 2 ^ (bitLength n - 53 - 1) ∧
                n / 2 ^ (bitLength n - 53) % 2 = 1)
            then n / 2 ^ (bitLength n - 53) + 1 else n / 2 ^ (bitLength n - 53)) = 2 ^ 53
        then (2 ^ 52, e + ((bitLength n - 53 : Nat) : Int) + 1)
        else
          ((if 2 ^ (bitLength n - 53 - 1) < n % 2 ^ (bitLength n - 53) ∨
              (n % 2 ^ (bitLength n - 53) = 2 ^ (bitLength n - 53 - 1) ∧
                n / 2 ^ (bitLength n - 53) % 2 = 1)
            then n / 2 ^ (bitLength n - 53) + 1 else n / 2 ^ (bitLength n - 53)),
           e + ((bitLength n - 53 : Nat) : Int))) := by
  have h1 : ¬ bitLength n ≤ 53 := by omega
  simp only [roundNat, hn, h1, if_false]


/-- The rounding of the model is a rounding to nearest: for `n ≠ 0` the result
of `roundNat n e` has a mantissa of exactly 53 binary digits and differs from
`n * 2 ^ e` by at most half a unit in its last place. -/
theorem roundNat_spec (n : Nat) (e : Int) (hn : n ≠ 0) :
    2 ^ 52 ≤ (roundNat n e).1 ∧ (roundNat n e).1 < 2 ^ 53 ∧
    |(n : ℚ) * (2 : ℚ) ^ e - ((roundNat n e).1 : ℚ) * (2 : ℚ) ^ (roundNat n e).2| ≤
      (2 : ℚ) ^ (roundNat n e).2 / 2 := by
  obtain ⟨hlo, hhi⟩ := bitLength_spec n hn
  have hb1 : 1 ≤ bitLength n := by
    by_contra h0
    have h00 : bitLength n = 0 := by omega
    rw [h00] at hhi
    omega
  have hE : (0 : ℚ) < (2 : ℚ) ^ e := by positivity
  by_cases h : bitLength n ≤ 53
  · rw [roundNat_of_le n e hn h]
    have hp52 : 2 ^ 52 = 2 ^ (bitLength n - 1) * 2 ^ (53 - bitLength n) := by
      rw [← pow_add]
      congr 1
      omega
    have hp53 : 2 ^ 53 = 2 ^ bitLength n * 2 ^ (53 - bitLength n) := by
      rw [← pow_add]
      congr 1
      omega
    have hk : 0 < 2 ^ (53 - bitLength n) := by positivity
    refine ⟨?_, ?_, ?_⟩
    · show 2 ^ 52 ≤ n * 2 ^ (53 - bitLength n)
      rw [hp52]
      exact Nat.mul_le_mul_right _ hlo
    · show n * 2 ^ (53 - bitLength n) < 2 ^ 53
      rw [hp53]
      exact Nat.mul_lt_mul_of_pos_right hhi hk
    · have hval : ((n * 2 ^ (53 - bitLength n) : Nat) : ℚ) *
          (2 : ℚ) ^ (e - ((53 - bitLength n : Nat) : Int)) = (n : ℚ) * (2 : ℚ) ^ e := by
        rw [zpow_sub₀ (by norm_num : (2 : ℚ) ≠ 0), zpow_natCast]
        push_cast
        field_simp
        ring
      simp only [hval, sub_self, abs_zero]
      positivity
  · have h53 : 53 < bitLength n := by omega
    rw [roundNat_of_lt n e hn h53]
    have hs1 : 1 ≤ bitLength n - 53 := by omega
    have hS : 2 ^ (bitLength n - 53) = 2 * 2 ^ (bitLength n - 53 - 1) := by
      rw [← pow_succ']
      congr 1
      omega
    have hSpos : 0 < 2 ^ (bitLength n - 53) := by positivity
    have hdm : 2 ^ (bitLength n - 53) * (n / 2 ^ (bitLength n - 53)) +
        n % 2 ^ (bitLength n - 53) = n := Nat.div_add_mod n _
    have hr : n % 2 ^ (bitLength n - 53) < 2 ^ (bitLength n - 53) := Nat.mod_lt _ hSpos
    have hqlo : 2 ^ 52 ≤ n / 2 ^ (bitLength n - 53) := by
      rw [Nat.le_div_iff_mul_le hSpos, ← pow_add]
      have : 52 + (bitLength n - 53) = bitLength n - 1 := by omega
      rw [this]
      exact hlo
    have hqhi : n / 2 ^ (bitLength n - 53) < 2 ^ 53 := by
      rw [Nat.div_lt_iff_lt_mul hSpos, ← pow_add]
      have : 53 + (bitLength n - 53) = bitLength n := by omega
      rw [this]
      exact hhi
    generalize hq : n / 2 ^ (bitLength n - 53) = q at hdm hqlo hqhi ⊢
    generalize hrr : n % 2 ^ (bitLength n - 53) = r at hdm hr ⊢
    generalize hhalf : 2 ^ (bitLength n - 53 - 1) = half at hS ⊢
    generalize hs : bitLength n - 53 = s at hS hSpos hdm hr hs1 ⊢
    have hcast : (2 : ℚ) ^ s * (q : ℚ) + (r : ℚ) = (n : ℚ) := by exact_mod_cast hdm
    have hScast : (2 : ℚ) ^ s = 2 * (half : ℚ) := by exact_mod_cast hS
    have hrS : (r : ℚ) < (2 : ℚ) ^ s := by exact_mod_cast hr
    have hz1 : (2 : ℚ) ^ (e + (s : Int)) = (2 : ℚ) ^ e * (2 : ℚ) ^ s := by
      rw [zpow_add₀ (by norm_num : (2 : ℚ) ≠ 0), zpow_natCast]
    have hz2 : (2 : ℚ) ^ (e + (s : Int) + 1) = (2 : ℚ) ^ e * (2 : ℚ) ^ s * 2 := by
      rw [zpow_add₀ (by norm_num : (2 : ℚ) ≠ 0), hz1, zpow_one]
    by_cases hc : half < r ∨ (r = half ∧ q % 2 = 1)
    · have hge : half ≤ r := by
        rcases hc with h1 | h1
        · omega
        · omega
      have hgeq : (half : ℚ) ≤ (r : ℚ) := by exact_mod_cast hge
      have herr : |(n : ℚ) * (2 : ℚ) ^ e - ((q : ℚ) + 1) * ((2 : ℚ) ^ e * (2 : ℚ) ^ s)| ≤
          (2 : ℚ) ^ e * (2 : ℚ) ^ s / 2 := by
        have hrew : (n : ℚ) * (2 : ℚ) ^ e - ((q : ℚ) + 1) * ((2 : ℚ) ^ e * (2 : ℚ) ^ s) =
            -(((2 : ℚ) ^ s - (r : ℚ)) * (2 : ℚ) ^ e) := by
          rw [← hcast]
          ring
        rw [hrew, abs_neg, abs_of_nonneg (mul_nonneg (by linarith) hE.le)]
        have : (2 : ℚ) ^ s - (r : ℚ) ≤ (2 : ℚ) ^ s / 2 := by linarith
        calc ((2 : ℚ) ^ s - (r : ℚ)) * (2 : ℚ) ^ e
            ≤ ((2 : ℚ) ^ s / 2) * (2 : ℚ) ^ e := mul_le_mul_of_nonneg_right this hE.le
          _ = (2 : ℚ) ^ e * (2 : ℚ) ^ s / 2 := by ring
      simp only [hc, if_true]
      by_cases hcarry : q + 1 = 2 ^ 53
      · simp only [hcarry, if_true]
        refine ⟨le_refl _, by norm_num, ?_⟩
        have hq53 : ((q : ℚ) + 1) = 2 ^ 53 := by exact_mod_cast hcarry
        rw [hq53] at herr
        rw [hz2]
        have hSE : (0 : ℚ) < (2 : ℚ) ^ e * (2 : ℚ) ^ s := by positivity
        have hrew2 : ((2 ^ 52 : Nat) : ℚ) * ((2 : ℚ) ^ e * (2 : ℚ) ^ s * 2) =
            2 ^ 53 * ((2 : ℚ) ^ e * (2 : ℚ) ^ s) := by
          push_cast
          ring
        rw [hrew2]
        linarith
      · simp only [hcarry, if_false]
        refine ⟨by omega, by omega, ?_⟩
        rw [hz1]
        push_cast
        exact herr
    · have hle : r ≤ half := by
        by_contra hlt
        exact hc (Or.inl (by omega))
      have hleq : (r : ℚ) ≤ (half : ℚ) := by exact_mod_cast hle
      have hq53 : q ≠ 2 ^ 53 := by omega
      simp only [hc, if_false, hq53]
      refine ⟨hqlo, hqhi, ?_⟩
      rw [hz1]
      have hrew : (n : ℚ) * (2 : ℚ) ^ e - (q : ℚ) * ((2 : ℚ) ^ e * (2 : ℚ) ^ s) =
          (r : ℚ) * (2 : ℚ) ^ e := by
        rw [← hcast]
        ring
      rw [hrew, abs_of_nonneg (mul_nonneg (by positivity) hE.le)]
      have : (r : ℚ) ≤ (2 : ℚ) ^ s / 2 := by linarith
      calc (r : ℚ) * (2 : ℚ) ^ e
          ≤ ((2 : ℚ) ^ s / 2) * (2 : ℚ) ^ e := mul_le_mul_of_nonneg_right this hE.le
        _ = (2 : ℚ) ^ e * (2 : ℚ) ^ s / 2 := by ring


/-- The model of `float64` reproduces known results of binary64 arithmetic:
`float64(3)` is exact, `1.0 / 3.0` is `0x3FD5555555555555`, `2.0 / 3.0` is
`0x3FE5555555555555`, and `0.1 + 0.1 + 0.1` is `0x3FD3333333333334`, printed
`0.30000000000000004`. -/
theorem binary64_arithmetic_examples :
    (((3 : Int) : Binary64) = { m := 6755399441055744, e := -51 }) ∧
    (((1 : Int) : Binary64) / ((3 : Int) : Binary64) = { m := 6004799503160661, e := -54 }) ∧
    (((2 : Int) : Binary64) / ((3 : Int) : Binary64) = { m := 6004799503160661, e := -53 }) ∧
    (0 + tenth + tenth + tenth = { m := 5404319552844596, e := -54 }) := by
  set_option maxRecDepth 2000 in
  decide

end TemperatureAmd
